import Mathlib

/-!
Formal model of the gosocketio Socket.IO server (ramory-l/gosocketio).

Go strings are modelled as `List Char`, Go maps (`map[k]v`) as association
lists with unique keys, Go sets (`map[string]bool`) as duplicate-free lists,
and Go's 64-bit `int` as `Int` with explicit clamping where `strconv`
overflow matters.  JSON values (`interface\x7b\x7d` holding decoded JSON) are
modelled by the inductive `JsonValue`; `encoding/json` marshalling and
unmarshalling are modelled by `serJson` and `jsonParse` (string escaping is
modelled for quote, backslash and the common control characters; numbers are
integers).  Concurrency is modelled by sequential state passing; the one
place where scheduling is observable (the `select` in `Session.Send`) takes
the scheduler's pick as an explicit argument.
-/

/-! ## Characters and decimal digits -/

/-- Decimal digit test on the byte value, as Go's `c >= '0' && c <= '9'`. -/
def isDigitChar (c : Char) : Bool := 48 ≤ c.toNat && c.toNat ≤ 57

/-- Numeric value of a digit character. -/
def digitVal (c : Char) : Nat := c.toNat - 48

/-- Character for a digit value below 10. -/
def digitChar (k : Nat) : Char := Char.ofNat (48 + k)

/-- Fuel-driven decimal printer (the fuel makes it structurally recursive,
so that it evaluates inside `decide`). -/
def natToCharsCore : Nat → Nat → List Char → List Char
  | 0, _, acc => acc
  | fuel+1, n, acc =>
    if n < 10 then digitChar n :: acc
    else natToCharsCore fuel (n / 10) (digitChar (n % 10) :: acc)

/-- Decimal representation of a natural number, as `strconv.Itoa` for
non-negative input. -/
def natToChars (n : Nat) : List Char := natToCharsCore (n + 1) n []

/-- Decimal representation of an integer, as `strconv.Itoa`. -/
def intToChars (n : Int) : List Char :=
  if n < 0 then '-' :: natToChars n.natAbs else natToChars n.toNat

/-- Consume a maximal run of decimal digits, accumulating their value. -/
def readDigits : List Char → Nat → Nat × List Char
  | [], acc => (acc, [])
  | c :: cs, acc =>
    if isDigitChar c then readDigits cs (acc * 10 + digitVal c) else (acc, c :: cs)

/-- Value of a digit string under a left fold, the spine of `readDigits`. -/
def digitsVal (ds : List Char) (acc : Nat) : Nat :=
  ds.foldl (fun a c => a * 10 + digitVal c) acc

/-- A character list that does not begin with a decimal digit (the greedy
ack-id scan of the Socket.IO decoder stops immediately on such a tail). -/
def noLeadDigit : List Char → Bool
  | [] => true
  | c :: _ => !(isDigitChar c)

/-! ## Association-list model of Go maps -/

/-- Lookup in an association list, first match wins (Go map read). -/
def mlookup {α β : Type} [DecidableEq α] : List (α × β) → α → Option β
  | [], _ => none
  | (k', v) :: m, k => if k' = k then some v else mlookup m k

/-- Store a key/value pair, replacing an existing binding (Go map write). -/
def mapSet {α β : Type} [DecidableEq α] : List (α × β) → α → β → List (α × β)
  | [], k, v => [(k, v)]
  | (k', v') :: m, k, v => if k' = k then (k, v) :: m else (k', v') :: mapSet m k v

/-- Delete a key (Go `delete`). -/
def mapDelete {α β : Type} [DecidableEq α] : List (α × β) → α → List (α × β)
  | [], _ => []
  | (k', v') :: m, k => if k' = k then m else (k', v') :: mapDelete m k

/-- The keys of the association list are pairwise distinct, as they are for
a Go map. -/
def keysNodup {α β : Type} (m : List (α × β)) : Prop := (m.map Prod.fst).Nodup

/-- Insert into a set modelled as a duplicate-free list
(Go `set[x] = true`). -/
def setInsert (s : List String) (x : String) : List String :=
  if x ∈ s then s else s ++ [x]

/-- Membership of `x` in the set stored under key `k` (absent key reads as
the empty set, as a Go nil map does). -/
def memOf (m : List (String × List String)) (k x : String) : Prop :=
  x ∈ ((mlookup m k).getD [])

/-! ## JSON value model (for `encoding/json` data payloads) -/

/-- A decoded JSON value (Go `interface\x7b\x7d` after `json.Unmarshal`):
null, booleans, numbers (modelled as integers), strings, arrays and
objects (an object is the ordered list of its members). -/
inductive JsonValue : Type where
  | null : JsonValue
  | bool (b : Bool) : JsonValue
  | num (n : Int) : JsonValue
  | str (s : List Char) : JsonValue
  | arr (elems : List JsonValue) : JsonValue
  | obj (members : List (List Char × JsonValue)) : JsonValue

/-- JSON string escaping for one character: quote, backslash and the three
common control characters get a backslash escape, everything else is
emitted verbatim. -/
def escapeChar (c : Char) : List Char :=
  if c = '"' then ['\\', '"']
  else if c = '\\' then ['\\', '\\']
  else if c = '\n' then ['\\', 'n']
  else if c = '\t' then ['\\', 't']
  else if c = '\r' then ['\\', 'r']
  else [c]

/-- Escape a whole string body. -/
def escapeString : List Char → List Char
  | [] => []
  | c :: cs => escapeChar c ++ escapeString cs

/-- Resolve a backslash escape while parsing a JSON string. -/
def unescapeChar (e : Char) : Char :=
  if e = 'n' then '\n' else if e = 't' then '\t' else if e = 'r' then '\r' else e

mutual

/-- JSON serialization, modelling `json.Marshal` on decoded values. -/
def serJson : JsonValue → List Char
  | .null => ['n', 'u', 'l', 'l']
  | .bool b => if b then ['t', 'r', 'u', 'e'] else ['f', 'a', 'l', 's', 'e']
  | .num n => intToChars n
  | .str s => '"' :: (escapeString s ++ ['"'])
  | .arr [] => ['[', ']']
  | .arr (x :: xs) => '[' :: (serElemsAux x xs ++ [']'])
  | .obj [] => ['\x7b', '\x7d']
  | .obj ((k, v) :: ms) => '\x7b' :: (serMembersAux k v ms ++ ['\x7d'])
termination_by v => sizeOf v

/-- Comma-separated serialization of a non-empty run of array elements. -/
def serElemsAux : JsonValue → List JsonValue → List Char
  | x, [] => serJson x
  | x, y :: ys => serJson x ++ ',' :: serElemsAux y ys
termination_by x xs => 1 + sizeOf x + sizeOf xs

/-- Comma-separated serialization of a non-empty run of object members. -/
def serMembersAux : List Char → JsonValue → List (List Char × JsonValue) → List Char
  | k, v, [] => '"' :: (escapeString k ++ '"' :: ':' :: serJson v)
  | k, v, (k', v') :: ms =>
    ('"' :: (escapeString k ++ '"' :: ':' :: serJson v)) ++ ',' :: serMembersAux k' v' ms
termination_by _ v ms => 1 + sizeOf v + sizeOf ms

end

/-- Size measure matching the fuel consumption of the JSON parser. -/
def jsize : JsonValue → Nat
  | .null => 1
  | .bool _ => 1
  | .num _ => 1
  | .str _ => 1
  | .arr [] => 1
  | .arr (x :: xs) => 1 + jsize x + jsize (.arr xs)
  | .obj [] => 1
  | .obj ((_, v) :: ms) => 1 + jsize v + jsize (.obj ms)
termination_by v => sizeOf v
decreasing_by all_goals (simp; try omega)

/-- Parse the body of a JSON string after its opening quote; returns the
unescaped content and the input after the closing quote. -/
def parseStrBody : List Char → Option (List Char × List Char)
  | [] => none
  | c :: cs =>
    if c = '"' then some ([], cs)
    else if c = '\\' then
      match cs with
      | [] => none
      | e :: cs' =>
        match parseStrBody cs' with
        | some (b, r) => some (unescapeChar e :: b, r)
        | none => none
    else
      match parseStrBody cs with
      | some (b, r) => some (c :: b, r)
      | none => none

/-- Recursive-descent JSON parser (fuel-driven, whitespace-free), modelling
`json.Unmarshal` into a dynamic value on the output of `json.Marshal`.
After the first element or member of a composite, the remaining run is
parsed by re-entering the parser on a re-bracketed tail. -/
def parseValue : Nat → List Char → Option (JsonValue × List Char)
  | 0, _ => none
  | fuel+1, cs =>
    match cs with
    | [] => none
    | c :: cs' =>
      if c = 'n' then
        match cs' with
        | 'u' :: 'l' :: 'l' :: rest => some (.null, rest)
        | _ => none
      else if c = 't' then
        match cs' with
        | 'r' :: 'u' :: 'e' :: rest => some (.bool true, rest)
        | _ => none
      else if c = 'f' then
        match cs' with
        | 'a' :: 'l' :: 's' :: 'e' :: rest => some (.bool false, rest)
        | _ => none
      else if c = '"' then
        match parseStrBody cs' with
        | some (b, rest) => some (.str b, rest)
        | none => none
      else if c = '[' then
        if cs'.head? = some ']' then some (.arr [], cs'.tail)
        else
          match parseValue fuel cs' with
          | some (v, rest) =>
            match rest with
            | ',' :: rest' =>
              (match parseValue fuel ('[' :: rest') with
               | some (.arr vs, rest2) => some (.arr (v :: vs), rest2)
               | _ => none)
            | ']' :: rest' => some (.arr [v], rest')
            | _ => none
          | none => none
      else if c = '\x7b' then
        if cs'.head? = some '\x7d' then some (.obj [], cs'.tail)
        else
          match cs' with
          | '"' :: cs2 =>
            match parseStrBody cs2 with
            | some (k, rest) =>
              match rest with
              | ':' :: rest' =>
                match parseValue fuel rest' with
                | some (v, rest2) =>
                  match rest2 with
                  | ',' :: r3 =>
                    (match parseValue fuel ('\x7b' :: r3) with
                     | some (.obj ms, r4) => some (.obj ((k, v) :: ms), r4)
                     | _ => none)
                  | '\x7d' :: r3 => some (.obj [(k, v)], r3)
                  | _ => none
                | none => none
              | _ => none
            | none => none
          | _ => none
      else if c = '-' then
        match cs' with
        | [] => none
        | d :: _ =>
          if isDigitChar d then
            some (.num (-((readDigits cs' 0).1 : Int)), (readDigits cs' 0).2)
          else none
      else if isDigitChar c then
        some (.num ((readDigits (c :: cs') 0).1 : Int), (readDigits (c :: cs') 0).2)
      else none

/-- Top-level JSON parse: the whole input must be consumed, as
`json.Unmarshal` rejects trailing data. -/
def jsonParse (cs : List Char) : Option JsonValue :=
  match parseValue (cs.length + 1) cs with
  | some (v, []) => some v
  | _ => none

/-! ## Socket.IO packet codec (`Packet.Encode`, `DecodePacket`) -/

/-- A Socket.IO packet (gosocketio `Packet`): type 0..6, namespace
(default `"/"`), optional JSON data, optional ack id (`*int`). -/
structure Packet : Type where
  type : Nat
  Namespace : List Char
  Data : Option JsonValue
  ID : Option Int

/-- The ack-id bytes of an encoded packet: the decimal representation when
`ID` is set (`if p.ID != nil`), otherwise nothing. -/
def idPart : Option Int → List Char
  | some i => intToChars i
  | none => []

/-- The data bytes of an encoded packet: the JSON serialization when `Data`
is set (`if p.Data != nil`), otherwise nothing. -/
def dataPart : Option JsonValue → List Char
  | some d => serJson d
  | none => []

/-- Encode a Socket.IO packet: type digit; namespace plus `,` unless empty
or `"/"`; decimal ack id; JSON data.  `json.Marshal` cannot fail on the
modelled values, so the model is total. -/
def Packet.Encode (p : Packet) : List Char :=
  natToChars p.type
    ++ (if p.Namespace ≠ [] ∧ p.Namespace ≠ ['/'] then p.Namespace ++ [','] else [])
    ++ idPart p.ID ++ dataPart p.Data

/-- Split the input at the first comma: `strings.IndexByte(data[pos:], ',')`
followed by the slicing in `DecodePacket`; `none` when no comma occurs. -/
def splitComma : List Char → Option (List Char × List Char)
  | [] => none
  | c :: cs =>
    if c = ',' then some ([], cs)
    else
      match splitComma cs with
      | some (pre, post) => some (c :: pre, post)
      | none => none

/-- `math.MaxInt64`: Go's `int` is 64 bits wide here. -/
def maxInt64 : Int := 9223372036854775807

/-- Model of `strconv.Atoi` on a run of decimal digits with the error
discarded: the mathematical value, clamped to `math.MaxInt64` on overflow
(`strconv.ParseInt` returns the clamped value together with `ErrRange`,
and `DecodePacket` drops the error). -/
def intClamp (n : Nat) : Int := if (n : Int) ≤ maxInt64 then (n : Int) else maxInt64

/-- Decode phase after type, namespace and ack id: any remaining bytes are
parsed as JSON; a parse error fails the packet. -/
def decodeAfterId (t : Nat) (ns : List Char) (id : Option Int) (cs : List Char) :
    Option Packet :=
  match cs with
  | [] => some ⟨t, ns, none, id⟩
  | _ :: _ =>
    match jsonParse cs with
    | some v => some ⟨t, ns, some v, id⟩
    | none => none

/-- Decode phase after type and namespace: an optional run of decimal
digits forms the ack id (value via the error-discarding `strconv.Atoi`). -/
def decodeAfterNs (t : Nat) (ns : List Char) (cs : List Char) : Option Packet :=
  match cs with
  | [] => some ⟨t, ns, none, none⟩
  | c :: _ =>
    if isDigitChar c then
      decodeAfterId t ns (some (intClamp (readDigits cs 0).1)) (readDigits cs 0).2
    else decodeAfterId t ns none cs

/-- Decode phase after the type digit: a leading `/` starts a namespace
that runs to the first `,`; with no comma the remainder is the namespace
and decoding ends; the default namespace is `"/"`. -/
def decodeAfterType (t : Nat) (cs : List Char) : Option Packet :=
  if cs.head? = some '/' then
    match splitComma cs with
    | none => some ⟨t, cs, none, none⟩
    | some (ns, rest) => decodeAfterNs t ns rest
  else decodeAfterNs t ['/'] cs

/-- Decode a Socket.IO packet (gosocketio `DecodePacket`): empty input and
a type byte outside `'0'..'6'` are rejected. -/
def DecodePacket (data : List Char) : Option Packet :=
  match data with
  | [] => none
  | c :: rest =>
    if 48 ≤ c.toNat ∧ c.toNat ≤ 54 then decodeAfterType (c.toNat - 48) rest
    else none

/-- Data payloads whose JSON serialization does not begin with a decimal
digit (equivalently, absent data).  A digit-leading payload is re-read as
an ack id by the greedy decoder, which is the tie-break §4.2 of the wire
format describes. -/
def dataOk : Option JsonValue → Prop
  | none => True
  | some d => noLeadDigit (serJson d) = true

/-! ## Engine.IO layer -/

namespace Engine

/-- An Engine.IO packet: type 0..6 plus opaque payload
(engineio `Packet`). -/
structure Packet : Type where
  type : Nat
  Data : List Char

/-- Engine.IO encode: `'0' + Type` prepended to the payload. -/
def Packet.Encode (p : Packet) : List Char := digitChar p.type :: p.Data

/-- `PacketTypeMessage = 4`. -/
def PacketTypeMessage : Nat := 4

/-- The observable send state of an Engine.IO session: the close latch
(channel `closed`, latched by `close(s.closed)`) and the buffered outbound
queue (`outgoing`, capacity 256). -/
structure SessionState : Type where
  closed : Bool
  outgoing : List Packet

/-- Result of `Session.Send`: `nil`, `ErrSessionClosed` or
`ErrSlowClient`. -/
inductive SendResult : Type where
  | ok : SendResult
  | sessionClosed : SendResult
  | slowClient : SendResult
deriving DecidableEq

/-- The case a Go `select` commits to when more than one communication is
ready (Go chooses by uniform pseudo-random selection; the model takes the
scheduler's pick as an argument). -/
inductive SelectCase : Type where
  | enqueue : SelectCase
  | closedCase : SelectCase
deriving DecidableEq

/-- `Session.Send`: a `select` over sending on the buffered `outgoing`
channel, receiving from the closed channel, and a `default` branch.  The
send case is ready when the buffer has room; the receive case is ready
once the session is closed; when both are ready the scheduler's `choice`
decides; when neither is ready the `default` branch returns
`ErrSlowClient`. -/
def Session.Send (s : SessionState) (packet : Packet) (choice : SelectCase) :
    SendResult × SessionState :=
  let canEnqueue := s.outgoing.length < 256
  if canEnqueue ∧ s.closed then
    match choice with
    | .enqueue => (.ok, ⟨s.closed, s.outgoing ++ [packet]⟩)
    | .closedCase => (.sessionClosed, s)
  else if canEnqueue then (.ok, ⟨s.closed, s.outgoing ++ [packet]⟩)
  else if s.closed then (.sessionClosed, s)
  else (.slowClient, s)

/-- The close-path state of a session: the `sync.Once` latch, the number of
CLOSE frames written to the WebSocket, and the reasons `onClose` has been
invoked with. -/
structure CloseState : Type where
  closeDone : Bool
  closeFrames : Nat
  onCloseCalls : List String

/-- `Session.Close(reason)`: the body runs under `closeOnce.Do`, so a
latched session is untouched; otherwise one CLOSE frame is written and
`onClose` is invoked once with the reason. -/
def Session.Close (st : CloseState) (reason : String) : CloseState :=
  if st.closeDone then st
  else ⟨true, st.closeFrames + 1, st.onCloseCalls ++ [reason]⟩

/-- Iterated `Close` calls. -/
def closeMany (st : CloseState) (reasons : List String) : CloseState :=
  reasons.foldl Session.Close st

end Engine

/-! ## In-memory adapter (`MemoryAdapter`) -/

/-- The two membership maps of the in-memory adapter:
`rooms : room → set of socket ids` and
`socketRooms : socket id → set of rooms`. -/
structure MemoryAdapter : Type where
  rooms : List (String × List String)
  socketRooms : List (String × List String)

/-- `MemoryAdapter.Add`: create-on-demand of the inner sets followed by the
two insertions. -/
def MemoryAdapter.Add (a : MemoryAdapter) (socketID room : String) : MemoryAdapter :=
  ⟨mapSet a.rooms room (setInsert ((mlookup a.rooms room).getD []) socketID),
   mapSet a.socketRooms socketID (setInsert ((mlookup a.socketRooms socketID).getD []) room)⟩

/-- One arm of `Remove`/`RemoveAll`: if the set under `key` exists, delete
`elt` from it; a set emptied by the deletion is removed from the map. -/
def removeFrom (m : List (String × List String)) (elt key : String) :
    List (String × List String) :=
  match mlookup m key with
  | none => m
  | some s =>
    let s' := s.erase elt
    if s' = [] then mapDelete m key else mapSet m key s'

/-- `MemoryAdapter.Remove`: drop the socket from the room's set and the
room from the socket's set, erasing emptied sets. -/
def MemoryAdapter.Remove (a : MemoryAdapter) (socketID room : String) : MemoryAdapter :=
  ⟨removeFrom a.rooms socketID room, removeFrom a.socketRooms room socketID⟩

/-- `MemoryAdapter.RemoveAll`: walk the socket's room set, dropping the
socket from each room's set, then delete the socket's entry. -/
def MemoryAdapter.RemoveAll (a : MemoryAdapter) (socketID : String) : MemoryAdapter :=
  ⟨((mlookup a.socketRooms socketID).getD []).foldl
      (fun m room => removeFrom m socketID room) a.rooms,
   mapDelete a.socketRooms socketID⟩

/-- `MemoryAdapter.Sockets`: the socket ids in a room (order models Go map
iteration). -/
def MemoryAdapter.Sockets (a : MemoryAdapter) (room : String) : List String :=
  (mlookup a.rooms room).getD []

/-- `MemoryAdapter.SocketRooms`: the rooms a socket is in. -/
def MemoryAdapter.SocketRooms (a : MemoryAdapter) (socketID : String) : List String :=
  (mlookup a.socketRooms socketID).getD []

/-- The candidate-target computation of `Broadcast`: the `targets` set,
built by inserting every non-excluded member of the given rooms (all
namespace sockets when `rooms` is empty). -/
def broadcastTargets (a : MemoryAdapter) (nsSockets : List String)
    (rooms except : List String) : List String :=
  if rooms = [] then
    nsSockets.foldl (fun ts sid => if sid ∈ except then ts else setInsert ts sid) []
  else
    rooms.foldl
      (fun ts room =>
        ((mlookup a.rooms room).getD []).foldl
          (fun ts sid => if sid ∈ except then ts else setInsert ts sid) ts)
      []

/-- `MemoryAdapter.Broadcast`: encode the packet once, wrap it in an
Engine.IO MESSAGE, and enqueue it on the session of every target id that
resolves in the namespace's socket directory (`nsSockets` is the
directory's key set).  The result is the list of `(socket id, enqueued
Engine.IO packet)` events; per-session send errors are ignored by the
source and are not modelled. -/
def MemoryAdapter.Broadcast (a : MemoryAdapter) (nsSockets : List String)
    (packet : Packet) (rooms except : List String) : List (String × Engine.Packet) :=
  let targets := broadcastTargets a nsSockets rooms except
  let encoded := Packet.Encode packet
  targets.filterMap
    (fun sid =>
      if sid ∈ nsSockets then some (sid, ⟨Engine.PacketTypeMessage, encoded⟩) else none)

/-- The broadcast candidate set as the claim states it: with no rooms
given, all sockets of the namespace; otherwise the union of the member
sets of the given rooms. -/
def inTargetRooms (a : MemoryAdapter) (nsSockets rooms : List String)
    (sid : String) : Prop :=
  match rooms with
  | [] => sid ∈ nsSockets
  | _ :: _ => ∃ r ∈ rooms, sid ∈ a.Sockets r

instance instDecInTargetRooms (a : MemoryAdapter) (nsSockets rooms : List String)
    (sid : String) : Decidable (inTargetRooms a nsSockets rooms sid) :=
  match rooms with
  | [] => (inferInstance : Decidable (sid ∈ nsSockets))
  | r :: rs => (inferInstance : Decidable (∃ x ∈ r :: rs, sid ∈ a.Sockets x))

/-- One call in an adapter history. -/
inductive AdapterOp : Type where
  | add (socketID room : String) : AdapterOp
  | remove (socketID room : String) : AdapterOp
  | removeAll (socketID : String) : AdapterOp

/-- Apply one adapter call. -/
def applyOp (a : MemoryAdapter) : AdapterOp → MemoryAdapter
  | .add sid room => a.Add sid room
  | .remove sid room => a.Remove sid room
  | .removeAll sid => a.RemoveAll sid

/-- Run a call history from the empty adapter (`NewMemoryAdapter`). -/
def applyOps (ops : List AdapterOp) : MemoryAdapter :=
  ops.foldl applyOp ⟨[], []⟩

/-- Well-formedness of an adapter state: Go-map key uniqueness, inner sets
duplicate-free and non-empty, and the bidirectional membership
invariant. -/
structure MemoryAdapter.WF (a : MemoryAdapter) : Prop where
  roomsKeys : keysNodup a.rooms
  srKeys : keysNodup a.socketRooms
  roomsVals : ∀ p ∈ a.rooms, p.2 ≠ [] ∧ p.2.Nodup
  srVals : ∀ p ∈ a.socketRooms, p.2 ≠ [] ∧ p.2.Nodup
  bij : ∀ sid r, memOf a.rooms r sid ↔ memOf a.socketRooms sid r

/-! ## Socket-level state (`Socket`) -/

/-- The ack bookkeeping of a `Socket`: the `atomic.Int64` ack-id counter and
the `sync.Map` of pending ack handlers.  Handlers are modelled by opaque
tokens. -/
structure SocketAckState : Type where
  ackID : Int
  ackHandlers : List (Int × Nat)

/-- `Socket.EmitWithAck`: allocate the next ack id (`ackID.Add(1)` returns
the incremented value), store the handler under it, and build the EVENT
packet `[event, data...]` carrying the id.  Returns the new state and the
packet handed to `sendPacket`. -/
def Socket.EmitWithAck (st : SocketAckState) (ns : List Char) (event : List Char)
    (ack : Nat) (data : List JsonValue) : SocketAckState × Packet :=
  let id := st.ackID + 1
  (⟨id, mapSet st.ackHandlers id ack⟩,
   ⟨2, ns, some (.arr (.str event :: data)), some id⟩)

/-- `Socket.handleAck`: packets without an id are ignored;
`LoadAndDelete` atomically removes the pending handler, and a miss is
silently dropped; the handler is dispatched with the packet's array
contents (non-array data dispatches with no arguments).  Returns the new
pending-ack map and the dispatched invocation, if any. -/
def Socket.handleAck (ackHandlers : List (Int × Nat)) (packet : Packet) :
    List (Int × Nat) × Option (Nat × List JsonValue) :=
  match packet.ID with
  | none => (ackHandlers, none)
  | some id =>
    match mlookup ackHandlers id with
    | none => (ackHandlers, none)
    | some h =>
      (mapDelete ackHandlers id,
       some (h, match packet.Data with
                | some (.arr xs) => xs
                | _ => []))

/-- `Namespace.removeSocket`: drop the id from the socket directory (its
key list is modelled) and call `Adapter.RemoveAll`. -/
def Namespace.removeSocket (sockets : List String) (a : MemoryAdapter) (id : String) :
    List String × MemoryAdapter :=
  (sockets.erase id, a.RemoveAll id)

/-- `Socket.handleClose`: snapshot the joined rooms, `Leave` each (local
delete plus `Adapter.Remove`), then remove the socket from its namespace.
Disconnect listeners receive the reason concurrently and do not touch this
state; they are not modelled.  Returns the socket's local room set, the
namespace directory and the adapter. -/
def Socket.handleClose (sid : String) (joined : List String)
    (sockets : List String) (a : MemoryAdapter) :
    List String × List String × MemoryAdapter :=
  let p :=
    joined.foldl (fun (p : List String × MemoryAdapter) room =>
      (p.1.erase room, p.2.Remove sid room)) (joined, a)
  let q := Namespace.removeSocket sockets p.2 sid
  (p.1, q.1, q.2)

/-! ## Lemmas: association-list maps and sets -/

section MapLemmas

variable {α β : Type} [DecidableEq α]

theorem mlookup_mapSet_self (m : List (α × β)) (k : α) (v : β) :
    mlookup (mapSet m k v) k = some v := by
  induction m with
  | nil => simp [mapSet, mlookup]
  | cons p m ih =>
    obtain ⟨k₀, v₀⟩ := p
    by_cases h0 : k₀ = k
    · subst h0
      simp [mapSet, mlookup]
    · simp only [mapSet, if_neg h0, mlookup]
      exact ih

theorem mlookup_mapSet_ne (m : List (α × β)) (k k' : α) (v : β) (h : k' ≠ k) :
    mlookup (mapSet m k v) k' = mlookup m k' := by
  have hk : ¬ k = k' := fun hh => h hh.symm
  induction m with
  | nil => simp [mapSet, mlookup, hk]
  | cons p m ih =>
    obtain ⟨k₀, v₀⟩ := p
    by_cases h0 : k₀ = k
    · subst h0
      simp only [mapSet, if_pos rfl, mlookup]
      rw [if_neg hk, if_neg hk]
    · simp only [mapSet, if_neg h0, mlookup]
      by_cases h1 : k₀ = k'
      · rw [if_pos h1, if_pos h1]
      · rw [if_neg h1, if_neg h1]
        exact ih

theorem mapSet_self_of_mlookup (m : List (α × β)) (k : α) (v : β)
    (h : mlookup m k = some v) : mapSet m k v = m := by
  induction m with
  | nil => simp [mlookup] at h
  | cons p m ih =>
    obtain ⟨k₀, v₀⟩ := p
    by_cases h0 : k₀ = k
    · subst h0
      simp only [mlookup, if_true, eq_self_iff_true, Option.some.injEq] at h
      simp [mapSet, h]
    · simp only [mlookup, if_neg h0] at h
      simp [mapSet, h0, ih h]

theorem mem_keys_mapSet (m : List (α × β)) (k x : α) (v : β) :
    x ∈ (mapSet m k v).map Prod.fst ↔ x ∈ m.map Prod.fst ∨ x = k := by
  induction m with
  | nil => simp [mapSet]
  | cons p m ih =>
    obtain ⟨k₀, v₀⟩ := p
    by_cases h0 : k₀ = k
    · subst h0
      simp [mapSet]
      tauto
    · simp only [mapSet, if_neg h0, List.map_cons, List.mem_cons, ih]
      tauto

theorem keysNodup_mapSet (m : List (α × β)) (k : α) (v : β) (h : keysNodup m) :
    keysNodup (mapSet m k v) := by
  induction m with
  | nil => simp [mapSet, keysNodup]
  | cons p m ih =>
    obtain ⟨k₀, v₀⟩ := p
    simp only [keysNodup, List.map_cons, List.nodup_cons] at h
    by_cases h0 : k₀ = k
    · subst h0
      simpa [mapSet, keysNodup, List.nodup_cons] using h
    · simp only [mapSet, if_neg h0, keysNodup, List.map_cons, List.nodup_cons]
      refine ⟨?_, ih h.2⟩
      intro hx
      rcases (mem_keys_mapSet m k k₀ v).mp hx with hh | hh
      · exact h.1 hh
      · exact h0 hh

theorem mem_mapSet (m : List (α × β)) (k : α) (v : β) (p : α × β)
    (h : p ∈ mapSet m k v) : p = (k, v) ∨ p ∈ m := by
  induction m with
  | nil => simpa [mapSet] using h
  | cons q m ih =>
    obtain ⟨k₀, v₀⟩ := q
    by_cases h0 : k₀ = k
    · subst h0
      simp only [mapSet, if_true, eq_self_iff_true, List.mem_cons] at h
      tauto
    · simp only [mapSet, if_neg h0, List.mem_cons] at h
      rcases h with h | h
      · simp [h]
      · rcases ih h with h | h <;> simp [h]

theorem mapDelete_sublist (m : List (α × β)) (k : α) : (mapDelete m k).Sublist m := by
  induction m with
  | nil => simp [mapDelete]
  | cons p m ih =>
    obtain ⟨k₀, v₀⟩ := p
    by_cases h0 : k₀ = k
    · simp only [mapDelete, if_pos h0]
      exact (List.sublist_cons_self _ _)
    · simp only [mapDelete, if_neg h0]
      exact ih.cons₂ _

theorem mem_mapDelete (m : List (α × β)) (k : α) (p : α × β)
    (h : p ∈ mapDelete m k) : p ∈ m :=
  (mapDelete_sublist m k).mem h

theorem keysNodup_mapDelete (m : List (α × β)) (k : α) (h : keysNodup m) :
    keysNodup (mapDelete m k) :=
  List.Nodup.sublist (((mapDelete_sublist m k)).map Prod.fst) h

theorem mlookup_eq_none_of_not_mem_keys (m : List (α × β)) (k : α)
    (h : k ∉ m.map Prod.fst) : mlookup m k = none := by
  induction m with
  | nil => simp [mlookup]
  | cons p m ih =>
    obtain ⟨k₀, v₀⟩ := p
    simp only [List.map_cons, List.mem_cons] at h
    push_neg at h
    simp only [mlookup]
    rw [if_neg (fun hh : k₀ = k => h.1 hh.symm)]
    exact ih h.2

theorem mlookup_mapDelete_self (m : List (α × β)) (k : α) (h : keysNodup m) :
    mlookup (mapDelete m k) k = none := by
  induction m with
  | nil => simp [mapDelete, mlookup]
  | cons p m ih =>
    obtain ⟨k₀, v₀⟩ := p
    simp only [keysNodup, List.map_cons, List.nodup_cons] at h
    by_cases h0 : k₀ = k
    · subst h0
      simp only [mapDelete, if_pos rfl]
      exact mlookup_eq_none_of_not_mem_keys m k₀ h.1
    · simp only [mapDelete, if_neg h0, mlookup]
      exact ih h.2

set_option linter.unnecessarySimpa false

theorem mlookup_mapDelete_ne (m : List (α × β)) (k k' : α) (h : k' ≠ k) :
    mlookup (mapDelete m k) k' = mlookup m k' := by
  induction m with
  | nil => simp [mapDelete]
  | cons p m ih =>
    obtain ⟨k₀, v₀⟩ := p
    by_cases h0 : k₀ = k
    · subst h0
      have h2 : ¬ k₀ = k' := fun hh => h hh.symm
      simp [mapDelete, mlookup, h2]
    · simp only [mapDelete, if_neg h0, mlookup]
      by_cases h1 : k₀ = k'
      · rw [if_pos h1, if_pos h1]
      · rw [if_neg h1, if_neg h1]
        exact ih

theorem mlookup_mem (m : List (α × β)) (k : α) (v : β) (h : mlookup m k = some v) :
    (k, v) ∈ m := by
  induction m with
  | nil => simp [mlookup] at h
  | cons p m ih =>
    obtain ⟨k₀, v₀⟩ := p
    by_cases h0 : k₀ = k
    · subst h0
      simp only [mlookup, if_true, eq_self_iff_true, Option.some.injEq] at h
      simp [h]
    · simp only [mlookup, if_neg h0] at h
      simp [ih h]

end MapLemmas

theorem mem_setInsert (s : List String) (x y : String) :
    x ∈ setInsert s y ↔ x ∈ s ∨ x = y := by
  by_cases h : y ∈ s
  · simp only [setInsert, if_pos h]
    constructor
    · tauto
    · rintro (hx | rfl)
      · exact hx
      · exact h
  · simp [setInsert, h]

theorem setInsert_ne_nil (s : List String) (y : String) : setInsert s y ≠ [] := by
  by_cases h : y ∈ s
  · simp only [setInsert, if_pos h]
    rintro rfl
    simp at h
  · simp [setInsert, h]

theorem nodup_setInsert (s : List String) (y : String) (h : s.Nodup) :
    (setInsert s y).Nodup := by
  by_cases hy : y ∈ s
  · simpa [setInsert, hy] using h
  · simp only [setInsert, if_neg hy]
    exact List.Nodup.append h (List.nodup_singleton y) (by simpa using hy)

/-! ## Lemmas: adapter membership and well-formedness -/

theorem memOf_addSide (m : List (String × List String)) (key elt k x : String) :
    memOf (mapSet m key (setInsert ((mlookup m key).getD []) elt)) k x
      ↔ memOf m k x ∨ (k = key ∧ x = elt) := by
  by_cases hk : k = key
  · subst hk
    rw [memOf, mlookup_mapSet_self]
    simp only [Option.getD_some]
    rw [mem_setInsert]
    simp [memOf]
  · rw [memOf, mlookup_mapSet_ne _ _ _ _ hk]
    simp [memOf, hk]

theorem keysNodup_removeFrom (m : List (String × List String)) (elt key : String)
    (h : keysNodup m) : keysNodup (removeFrom m elt key) := by
  rw [removeFrom]
  cases hl : mlookup m key with
  | none => exact h
  | some s =>
    by_cases he : s.erase elt = []
    · simpa [he] using keysNodup_mapDelete m key h
    · simpa [he] using keysNodup_mapSet m key (s.erase elt) h

theorem vals_removeFrom (m : List (String × List String)) (elt key : String)
    (h : ∀ p ∈ m, p.2 ≠ [] ∧ p.2.Nodup) :
    ∀ p ∈ removeFrom m elt key, p.2 ≠ [] ∧ p.2.Nodup := by
  intro p hp
  rw [removeFrom] at hp
  cases hl : mlookup m key with
  | none =>
    rw [hl] at hp
    exact h p hp
  | some s =>
    rw [hl] at hp
    by_cases he : s.erase elt = []
    · simp only [he, if_true, eq_self_iff_true] at hp
      exact h p (mem_mapDelete m key p hp)
    · simp only [he, if_neg he] at hp
      rcases mem_mapSet m key (s.erase elt) p hp with h1 | h1
      · subst h1
        exact ⟨he, ((h _ (mlookup_mem m key s hl)).2).erase elt⟩
      · exact h p h1

theorem memOf_removeFrom (m : List (String × List String)) (elt key : String)
    (hk : keysNodup m) (hv : ∀ p ∈ m, p.2 ≠ [] ∧ p.2.Nodup) (k x : String) :
    memOf (removeFrom m elt key) k x ↔ memOf m k x ∧ ¬(k = key ∧ x = elt) := by
  rw [removeFrom]
  cases hl : mlookup m key with
  | none =>
    by_cases hkk : k = key
    · subst hkk
      simp [memOf, hl]
    · simp [hkk]
  | some s =>
    have hnd : s.Nodup := (hv _ (mlookup_mem m key s hl)).2
    by_cases he : s.erase elt = []
    · simp only [he, if_true, eq_self_iff_true]
      by_cases hkk : k = key
      · subst hkk
        rw [memOf, mlookup_mapDelete_self m k hk]
        rw [memOf, hl]
        simp only [Option.getD_none, Option.getD_some, List.not_mem_nil, false_iff,
          eq_self_iff_true, true_and]
        rintro ⟨hmem, hne⟩
        have hx : x ∈ s.erase elt := hnd.mem_erase_iff.mpr ⟨hne, hmem⟩
        rw [he] at hx
        simp at hx
      · rw [memOf, mlookup_mapDelete_ne m key k hkk, ← memOf]
        simp [hkk]
    · simp only [if_neg he]
      by_cases hkk : k = key
      · subst hkk
        rw [memOf, mlookup_mapSet_self]
        rw [memOf, hl]
        simp only [Option.getD_some, eq_self_iff_true, true_and]
        rw [hnd.mem_erase_iff]
        tauto
      · rw [memOf, mlookup_mapSet_ne _ _ _ _ hkk, ← memOf]
        simp [hkk]

theorem keysNodup_foldl_removeFrom (rs : List String) (elt : String) :
    ∀ m : List (String × List String), keysNodup m →
      keysNodup (rs.foldl (fun m room => removeFrom m elt room) m) := by
  induction rs with
  | nil => intro m h; simpa using h
  | cons r rs ih =>
    intro m h
    simpa using ih (removeFrom m elt r) (keysNodup_removeFrom m elt r h)

theorem vals_foldl_removeFrom (rs : List String) (elt : String) :
    ∀ m : List (String × List String), (∀ p ∈ m, p.2 ≠ [] ∧ p.2.Nodup) →
      ∀ p ∈ rs.foldl (fun m room => removeFrom m elt room) m, p.2 ≠ [] ∧ p.2.Nodup := by
  induction rs with
  | nil => intro m h; simpa using h
  | cons r rs ih =>
    intro m h
    simpa using ih (removeFrom m elt r) (vals_removeFrom m elt r h)

theorem memOf_foldl_removeFrom (rs : List String) (elt : String) :
    ∀ m : List (String × List String), keysNodup m →
      (∀ p ∈ m, p.2 ≠ [] ∧ p.2.Nodup) → ∀ k x,
      (memOf (rs.foldl (fun m room => removeFrom m elt room) m) k x
        ↔ memOf m k x ∧ ¬(x = elt ∧ k ∈ rs)) := by
  induction rs with
  | nil => intro m hk hv k x; simp
  | cons r rs ih =>
    intro m hk hv k x
    simp only [List.foldl_cons]
    rw [ih (removeFrom m elt r) (keysNodup_removeFrom m elt r hk) (vals_removeFrom m elt r hv)]
    rw [memOf_removeFrom m elt r hk hv]
    simp only [List.mem_cons]
    tauto


theorem WF_Add (a : MemoryAdapter) (h : a.WF) (sid room : String) :
    (a.Add sid room).WF := by
  constructor
  · exact keysNodup_mapSet _ _ _ h.roomsKeys
  · exact keysNodup_mapSet _ _ _ h.srKeys
  · intro p hp
    rcases mem_mapSet _ _ _ p hp with h1 | h1
    · subst h1
      refine ⟨setInsert_ne_nil _ _, nodup_setInsert _ _ ?_⟩
      cases hl : mlookup a.rooms room with
      | none => simp
      | some s => simpa using (h.roomsVals _ (mlookup_mem _ _ _ hl)).2
    · exact h.roomsVals p h1
  · intro p hp
    rcases mem_mapSet _ _ _ p hp with h1 | h1
    · subst h1
      refine ⟨setInsert_ne_nil _ _, nodup_setInsert _ _ ?_⟩
      cases hl : mlookup a.socketRooms sid with
      | none => simp
      | some s => simpa using (h.srVals _ (mlookup_mem _ _ _ hl)).2
    · exact h.srVals p h1
  · intro s r
    have hL := memOf_addSide a.rooms room sid r s
    have hR := memOf_addSide a.socketRooms sid room s r
    show memOf (mapSet a.rooms room (setInsert ((mlookup a.rooms room).getD []) sid)) r s
      ↔ memOf (mapSet a.socketRooms sid ((setInsert ((mlookup a.socketRooms sid).getD []) room))) s r
    rw [hL, hR, h.bij]
    tauto

theorem WF_Remove (a : MemoryAdapter) (h : a.WF) (sid room : String) :
    (a.Remove sid room).WF := by
  constructor
  · exact keysNodup_removeFrom _ _ _ h.roomsKeys
  · exact keysNodup_removeFrom _ _ _ h.srKeys
  · exact vals_removeFrom _ _ _ h.roomsVals
  · exact vals_removeFrom _ _ _ h.srVals
  · intro s r
    show memOf (removeFrom a.rooms sid room) r s ↔ memOf (removeFrom a.socketRooms room sid) s r
    rw [memOf_removeFrom _ _ _ h.roomsKeys h.roomsVals,
        memOf_removeFrom _ _ _ h.srKeys h.srVals, h.bij]
    tauto

theorem WF_RemoveAll (a : MemoryAdapter) (h : a.WF) (sid : String) :
    (a.RemoveAll sid).WF := by
  constructor
  · exact keysNodup_foldl_removeFrom _ _ _ h.roomsKeys
  · exact keysNodup_mapDelete _ _ h.srKeys
  · exact vals_foldl_removeFrom _ _ _ h.roomsVals
  · intro p hp
    exact h.srVals p (mem_mapDelete _ _ p hp)
  · intro s r
    show memOf (((mlookup a.socketRooms sid).getD []).foldl
        (fun m room => removeFrom m sid room) a.rooms) r s
      ↔ memOf (mapDelete a.socketRooms sid) s r
    rw [memOf_foldl_removeFrom _ _ _ h.roomsKeys h.roomsVals]
    by_cases hs : s = sid
    · subst hs
      rw [h.bij]
      have hR : ¬ memOf (mapDelete a.socketRooms s) s r := by
        rw [memOf, mlookup_mapDelete_self _ _ h.srKeys]
        simp
      have hmem : memOf a.socketRooms s r ↔ r ∈ ((mlookup a.socketRooms s).getD []) :=
        Iff.rfl
      constructor
      · rintro ⟨h1, h2⟩
        exact absurd ⟨rfl, hmem.mp h1⟩ h2
      · intro h1
        exact absurd h1 hR
    · have hR : memOf (mapDelete a.socketRooms sid) s r ↔ memOf a.socketRooms s r := by
        rw [memOf, mlookup_mapDelete_ne _ _ _ hs, ← memOf]
      rw [hR, h.bij]
      constructor
      · rintro ⟨h1, _⟩
        exact h1
      · intro h1
        exact ⟨h1, fun hc => hs hc.1⟩

theorem WF_empty : (MemoryAdapter.mk [] []).WF := by
  constructor <;> simp [keysNodup, memOf, mlookup]

theorem WF_applyOp (a : MemoryAdapter) (h : a.WF) (op : AdapterOp) :
    (applyOp a op).WF := by
  cases op with
  | add sid room => exact WF_Add a h sid room
  | remove sid room => exact WF_Remove a h sid room
  | removeAll sid => exact WF_RemoveAll a h sid

theorem WF_applyOps (ops : List AdapterOp) : (applyOps ops).WF := by
  rw [applyOps]
  have main : ∀ a : MemoryAdapter, a.WF → (ops.foldl applyOp a).WF := by
    induction ops with
    | nil => intro a h; simpa using h
    | cons op ops ih =>
      intro a h
      simpa using ih (applyOp a op) (WF_applyOp a h op)
  exact main _ WF_empty

/-! ## Claim C3: adapter bijection invariant -/

/-- C3: starting from the empty `MemoryAdapter`, after any finite sequence
of `Add`, `Remove` and `RemoveAll` calls, a socket id is a member of
`rooms[r]` exactly when `r` is a member of `socket_rooms[sid]`, and neither
map contains an entry whose value is an empty set. -/
theorem C3_adapter_invariant (ops : List AdapterOp) :
    (∀ sid r, memOf (applyOps ops).rooms r sid ↔ memOf (applyOps ops).socketRooms sid r)
    ∧ (∀ p ∈ (applyOps ops).rooms, p.2 ≠ [])
    ∧ (∀ p ∈ (applyOps ops).socketRooms, p.2 ≠ []) := by
  have h := WF_applyOps ops
  exact ⟨h.bij, fun p hp => (h.roomsVals p hp).1, fun p hp => (h.srVals p hp).1⟩

/-- Witness for C3 at a concrete call history. -/
theorem C3_adapter_invariant_witness :
    memOf (applyOps [AdapterOp.add "s1" "r1", AdapterOp.add "s1" "r2",
        AdapterOp.remove "s1" "r1"]).rooms "r2" "s1"
      ↔ memOf (applyOps [AdapterOp.add "s1" "r1", AdapterOp.add "s1" "r2",
          AdapterOp.remove "s1" "r1"]).socketRooms "s1" "r2" :=
  (C3_adapter_invariant [AdapterOp.add "s1" "r1", AdapterOp.add "s1" "r2",
    AdapterOp.remove "s1" "r1"]).1 "s1" "r2"

/-! ## Claim C10: Remove of a non-member is a no-op -/

/-- C10: on a well-formed adapter state, removing a socket from a room it
is not a member of leaves both maps exactly unchanged. -/
theorem C10_remove_nonmember_noop (a : MemoryAdapter) (h : a.WF) (sid room : String)
    (hmem : ¬ memOf a.rooms room sid) : a.Remove sid room = a := by
  have hsr : ¬ memOf a.socketRooms sid room := fun hc => hmem ((h.bij sid room).mpr hc)
  have h1 : removeFrom a.rooms sid room = a.rooms := by
    cases hl : mlookup a.rooms room with
    | none => simp only [removeFrom, hl]
    | some s =>
      have hx : sid ∉ s := by
        intro hs
        exact hmem (by rw [memOf, hl]; simpa using hs)
      have he : s.erase sid = s := List.erase_of_not_mem hx
      have hne : s ≠ [] := (h.roomsVals _ (mlookup_mem _ _ _ hl)).1
      simp only [removeFrom, hl, he, if_neg hne]
      exact mapSet_self_of_mlookup _ _ _ hl
  have h2 : removeFrom a.socketRooms room sid = a.socketRooms := by
    cases hl : mlookup a.socketRooms sid with
    | none => simp only [removeFrom, hl]
    | some s =>
      have hx : room ∉ s := by
        intro hs
        exact hsr (by rw [memOf, hl]; simpa using hs)
      have he : s.erase room = s := List.erase_of_not_mem hx
      have hne : s ≠ [] := (h.srVals _ (mlookup_mem _ _ _ hl)).1
      simp only [removeFrom, hl, he, if_neg hne]
      exact mapSet_self_of_mlookup _ _ _ hl
  show (⟨removeFrom a.rooms sid room, removeFrom a.socketRooms room sid⟩ : MemoryAdapter) = a
  rw [h1, h2]

/-- Witness for C10 at a concrete well-formed state. -/
theorem C10_remove_nonmember_noop_witness :
    MemoryAdapter.Remove ⟨[("r1", ["s1"])], [("s1", ["r1"])]⟩ "s2" "r2"
      = (⟨[("r1", ["s1"])], [("s1", ["r1"])]⟩ : MemoryAdapter) := by
  refine C10_remove_nonmember_noop _ ?_ "s2" "r2" ?_
  · constructor
    · simp [keysNodup]
    · simp [keysNodup]
    · intro p hp
      simp at hp
      simp [hp]
    · intro p hp
      simp at hp
      simp [hp]
    · intro sid r
      simp only [memOf, mlookup]
      by_cases hr : "r1" = r
      · by_cases hs : "s1" = sid
        · rw [if_pos hr, if_pos hs]
          simp only [Option.getD_some, List.mem_singleton]
          constructor
          · intro _
            exact hr.symm
          · intro _
            exact hs.symm
        · rw [if_pos hr, if_neg hs]
          simp only [Option.getD_some, Option.getD_none, List.mem_singleton,
            List.not_mem_nil, iff_false]
          exact fun hh => hs hh.symm
      · by_cases hs : "s1" = sid
        · rw [if_neg hr, if_pos hs]
          simp only [Option.getD_some, Option.getD_none, List.mem_singleton,
            List.not_mem_nil, false_iff]
          exact fun hh => hr hh.symm
        · rw [if_neg hr, if_neg hs]
          simp
  · simp [memOf, mlookup]

/-! ## Claim C5: Close is idempotent and single-shot -/

/-- C5: calling `Close` N ≥ 1 times on a fresh session, with any sequence
of reasons, invokes `onClose` exactly once with the first reason and
writes exactly one CLOSE frame (in particular at most one). -/
theorem C5_close_idempotent (r : String) (rs : List String) :
    Engine.closeMany ⟨false, 0, []⟩ (r :: rs) = ⟨true, 1, [r]⟩ := by
  have closedStable : ∀ (reasons : List String) (st : Engine.CloseState),
      st.closeDone = true → Engine.closeMany st reasons = st := by
    intro reasons
    induction reasons with
    | nil => intro st _; rfl
    | cons x xs ih =>
      intro st h
      have hstep : Engine.Session.Close st x = st := by
        simp [Engine.Session.Close, h]
      show (x :: xs).foldl Engine.Session.Close st = st
      rw [List.foldl_cons, hstep]
      exact ih st h
  show (r :: rs).foldl Engine.Session.Close ⟨false, 0, []⟩ = ⟨true, 1, [r]⟩
  rw [List.foldl_cons]
  have hstep : Engine.Session.Close ⟨false, 0, []⟩ r = ⟨true, 1, [r]⟩ := by
    simp [Engine.Session.Close]
  rw [hstep]
  exact closedStable rs _ rfl

/-! ## Claim C4: Send after Close (code bug exhibit) -/

/-- C4 exhibit: on a closed session whose outbound queue has room, the
`select` in `Session.Send` has two ready cases; when the scheduler picks
the channel-send case, `Send` enqueues the packet and returns `nil`,
contradicting the specified `SessionClosed` behaviour. -/
theorem C4_send_after_close_can_enqueue (p : Engine.Packet) :
    Engine.Session.Send ⟨true, []⟩ p .enqueue = (.ok, ⟨true, [p]⟩)
    ∧ Engine.Session.Send ⟨true, []⟩ p .closedCase = (.sessionClosed, ⟨true, []⟩) := by
  constructor
  · simp [Engine.Session.Send]
  · simp [Engine.Session.Send]

/-! ## Claim C7: ack id counter -/

/-- C7 counterexample: on a freshly created socket (counter 0), the first
`EmitWithAck` sends ack id 1, not 0 (`ackID.Add(1)` returns the
incremented value). -/
theorem C7_first_ack_id_not_zero :
    (Socket.EmitWithAck ⟨0, []⟩ ['/'] ['e'] 0 []).2.ID = some 1 ∧
      ¬ (Socket.EmitWithAck ⟨0, []⟩ ['/'] ['e'] 0 []).2.ID = some 0 := by
  constructor
  · decide
  · decide

/-- C7 (amended): the counter starts at 0 but ids are assigned
pre-incremented: every `EmitWithAck` sends ack id `previous counter + 1`
and stores that value back, so a fresh socket's ids are 1, 2, 3, … -/
theorem C7_ack_id_increments (st : SocketAckState) (ns event : List Char) (ack : Nat)
    (data : List JsonValue) :
    (Socket.EmitWithAck st ns event ack data).2.ID = some (st.ackID + 1)
    ∧ (Socket.EmitWithAck st ns event ack data).1.ackID = st.ackID + 1 :=
  ⟨rfl, rfl⟩

/-! ## Claim C6: ack correlation -/

/-- C6: after `EmitWithAck` stores handler `cb` under the assigned id, the
first ACK carrying that id and data `[v1, v2]` removes the pending entry
and dispatches `cb` once with `v1, v2`; a second ACK with the same id, and
any ACK whose id has no pending entry, is dropped without invoking
anything. -/
theorem C6_ack_correlation (st : SocketAckState) (hnd : keysNodup st.ackHandlers)
    (ns ev ns2 : List Char) (cb : Nat) (args : List JsonValue) (v1 v2 : JsonValue) :
    (Socket.EmitWithAck st ns ev cb args).2.ID = some (st.ackID + 1)
    ∧ (Socket.handleAck (Socket.EmitWithAck st ns ev cb args).1.ackHandlers
        ⟨3, ns2, some (.arr [v1, v2]), some (st.ackID + 1)⟩).2 = some (cb, [v1, v2])
    ∧ mlookup (Socket.handleAck (Socket.EmitWithAck st ns ev cb args).1.ackHandlers
        ⟨3, ns2, some (.arr [v1, v2]), some (st.ackID + 1)⟩).1 (st.ackID + 1) = none
    ∧ (Socket.handleAck
        (Socket.handleAck (Socket.EmitWithAck st ns ev cb args).1.ackHandlers
          ⟨3, ns2, some (.arr [v1, v2]), some (st.ackID + 1)⟩).1
        ⟨3, ns2, some (.arr [v1, v2]), some (st.ackID + 1)⟩).2 = none
    ∧ (∀ (hs : List (Int × Nat)) (pkt : Packet),
        (∀ m, pkt.ID = some m → mlookup hs m = none) →
        Socket.handleAck hs pkt = (hs, none)) := by
  have hstore : (Socket.EmitWithAck st ns ev cb args).1.ackHandlers
      = mapSet st.ackHandlers (st.ackID + 1) cb := rfl
  have hlook := mlookup_mapSet_self st.ackHandlers (st.ackID + 1) cb
  have hnd2 : keysNodup (mapSet st.ackHandlers (st.ackID + 1) cb) :=
    keysNodup_mapSet _ _ _ hnd
  have hdel := mlookup_mapDelete_self (mapSet st.ackHandlers (st.ackID + 1) cb)
    (st.ackID + 1) hnd2
  have hfirst : (Socket.handleAck (Socket.EmitWithAck st ns ev cb args).1.ackHandlers
      ⟨3, ns2, some (.arr [v1, v2]), some (st.ackID + 1)⟩)
      = (mapDelete (mapSet st.ackHandlers (st.ackID + 1) cb) (st.ackID + 1),
         some (cb, [v1, v2])) := by
    rw [hstore]
    simp [Socket.handleAck, hlook]
  refine ⟨rfl, ?_, ?_, ?_, ?_⟩
  · rw [hfirst]
  · rw [hfirst]
    exact hdel
  · rw [hfirst]
    simp [Socket.handleAck, hdel]
  · intro hs pkt hmiss
    cases hid : pkt.ID with
    | none => simp [Socket.handleAck, hid]
    | some m => simp [Socket.handleAck, hid, hmiss m hid]

/-- Witness for C6 at a concrete socket state and ACK values. -/
theorem C6_ack_correlation_witness :
    (Socket.handleAck (Socket.EmitWithAck ⟨0, []⟩ ['/'] ['e'] 7 []).1.ackHandlers
        ⟨3, ['/'], some (.arr [.null, .bool true]), some 1⟩).2
      = some (7, [.null, .bool true]) := by
  have h := (C6_ack_correlation ⟨0, []⟩ (by simp [keysNodup]) ['/'] ['e'] ['/'] 7 []
    .null (.bool true)).2.1
  simpa using h

/-! ## Claim C8: session-close cleanup -/

theorem handleClose_adapter_eq (sid : String) (js : List String) :
    ∀ (init : List String) (m : MemoryAdapter),
      (js.foldl (fun (p : List String × MemoryAdapter) room =>
          (p.1.erase room, p.2.Remove sid room)) (init, m)).2
        = js.foldl (fun m room => m.Remove sid room) m := by
  induction js with
  | nil => intro init m; rfl
  | cons r js ih =>
    intro init m
    simp only [List.foldl_cons]
    exact ih (init.erase r) (m.Remove sid r)

theorem WF_foldl_Remove (sid : String) (js : List String) :
    ∀ m : MemoryAdapter, m.WF → (js.foldl (fun m room => m.Remove sid room) m).WF := by
  induction js with
  | nil => intro m h; simpa using h
  | cons r js ih =>
    intro m h
    simpa using ih (m.Remove sid r) (WF_Remove m h sid r)

/-- C8: when a socket's session close fires, the socket leaves every room
it had joined and is removed from its namespace: afterwards the adapter's
member set of each previously joined room no longer contains the id,
`SocketRooms` of the id is empty, and the directory no longer holds the
id. -/
theorem C8_close_cleanup (sid : String) (joined sockets : List String) (a : MemoryAdapter)
    (h : a.WF) (hso : sockets.Nodup) (r : String) (_hr : r ∈ joined) :
    ¬ memOf (Socket.handleClose sid joined sockets a).2.2.rooms r sid
    ∧ (Socket.handleClose sid joined sockets a).2.2.SocketRooms sid = []
    ∧ sid ∉ (Socket.handleClose sid joined sockets a).2.1 := by
  have hres2 : (Socket.handleClose sid joined sockets a).2.2
      = (joined.foldl (fun m room => m.Remove sid room) a).RemoveAll sid := by
    simp only [Socket.handleClose, Namespace.removeSocket]
    rw [handleClose_adapter_eq]
  have hres1 : (Socket.handleClose sid joined sockets a).2.1 = sockets.erase sid := rfl
  have hWF1 : (joined.foldl (fun m room => m.Remove sid room) a).WF :=
    WF_foldl_Remove sid joined a h
  have hWFfin : ((joined.foldl (fun m room => m.Remove sid room) a).RemoveAll sid).WF :=
    WF_RemoveAll _ hWF1 sid
  have hsrNone : mlookup ((joined.foldl (fun m room => m.Remove sid room) a).RemoveAll
      sid).socketRooms sid = none := by
    show mlookup (mapDelete (joined.foldl (fun m room => m.Remove sid room) a).socketRooms
      sid) sid = none
    exact mlookup_mapDelete_self _ _ hWF1.srKeys
  refine ⟨?_, ?_, ?_⟩
  · rw [hres2]
    intro hm
    have hb := (hWFfin.bij sid r).mp hm
    rw [memOf, hsrNone] at hb
    simp at hb
  · rw [hres2]
    show (mlookup ((joined.foldl (fun m room => m.Remove sid room) a).RemoveAll
      sid).socketRooms sid).getD [] = []
    rw [hsrNone]
    rfl
  · rw [hres1]
    intro hm
    have := (hso.mem_erase_iff).mp hm
    exact this.1 rfl

/-- Witness for C8 at a concrete state: a socket in two rooms closes. -/
theorem C8_close_cleanup_witness :
    ¬ memOf (Socket.handleClose "s1" ["r1", "r2"] ["s1"]
        (applyOps [.add "s1" "r1", .add "s1" "r2"])).2.2.rooms "r1" "s1" :=
  (C8_close_cleanup "s1" ["r1", "r2"] ["s1"] _
    (WF_applyOps [.add "s1" "r1", .add "s1" "r2"]) (by simp) "r1" (by simp)).1

/-! ## Claim C1: broadcast targeting -/

theorem mem_foldl_ins (ex : List String) (sid : String) (xs : List String) :
    ∀ init : List String,
      sid ∈ xs.foldl (fun ts s => if s ∈ ex then ts else setInsert ts s) init
        ↔ sid ∈ init ∨ (sid ∈ xs ∧ sid ∉ ex) := by
  induction xs with
  | nil => intro init; simp
  | cons x xs ih =>
    intro init
    simp only [List.foldl_cons]
    rw [ih]
    by_cases hx : x ∈ ex
    · rw [if_pos hx]
      constructor
      · rintro (h | h)
        · exact Or.inl h
        · exact Or.inr ⟨List.mem_cons_of_mem x h.1, h.2⟩
      · rintro (h | ⟨hm, hne⟩)
        · exact Or.inl h
        · rcases List.mem_cons.mp hm with rfl | hm
          · exact absurd hx hne
          · exact Or.inr ⟨hm, hne⟩
    · rw [if_neg hx, mem_setInsert]
      constructor
      · rintro ((h | rfl) | ⟨hm, hne⟩)
        · exact Or.inl h
        · exact Or.inr ⟨List.mem_cons_self _ _, hx⟩
        · exact Or.inr ⟨List.mem_cons_of_mem _ hm, hne⟩
      · rintro (h | ⟨hm, hne⟩)
        · exact Or.inl (Or.inl h)
        · rcases List.mem_cons.mp hm with rfl | hm
          · exact Or.inl (Or.inr rfl)
          · exact Or.inr ⟨hm, hne⟩

theorem nodup_foldl_ins (ex : List String) (xs : List String) :
    ∀ init : List String, init.Nodup →
      (xs.foldl (fun ts s => if s ∈ ex then ts else setInsert ts s) init).Nodup := by
  induction xs with
  | nil => intro init h; simpa using h
  | cons x xs ih =>
    intro init h
    simp only [List.foldl_cons]
    by_cases hx : x ∈ ex
    · rw [if_pos hx]
      exact ih init h
    · rw [if_neg hx]
      exact ih _ (nodup_setInsert _ _ h)

theorem mem_foldl_rooms (a : MemoryAdapter) (ex : List String) (sid : String)
    (rs : List String) :
    ∀ init : List String,
      sid ∈ rs.foldl (fun ts room => ((mlookup a.rooms room).getD []).foldl
          (fun ts s => if s ∈ ex then ts else setInsert ts s) ts) init
        ↔ sid ∈ init ∨ ((∃ r ∈ rs, sid ∈ (mlookup a.rooms r).getD []) ∧ sid ∉ ex) := by
  induction rs with
  | nil => intro init; simp
  | cons r rs ih =>
    intro init
    simp only [List.foldl_cons]
    rw [ih, mem_foldl_ins]
    constructor
    · rintro ((h | ⟨hm, hne⟩) | ⟨⟨r', hr', hm'⟩, hne⟩)
      · exact Or.inl h
      · exact Or.inr ⟨⟨r, List.mem_cons_self _ _, hm⟩, hne⟩
      · exact Or.inr ⟨⟨r', List.mem_cons_of_mem _ hr', hm'⟩, hne⟩
    · rintro (h | ⟨⟨r', hr', hm'⟩, hne⟩)
      · exact Or.inl (Or.inl h)
      · rcases List.mem_cons.mp hr' with rfl | hr'
        · exact Or.inl (Or.inr ⟨hm', hne⟩)
        · exact Or.inr ⟨⟨r', hr', hm'⟩, hne⟩

theorem nodup_foldl_rooms (a : MemoryAdapter) (ex : List String) (rs : List String) :
    ∀ init : List String, init.Nodup →
      (rs.foldl (fun ts room => ((mlookup a.rooms room).getD []).foldl
          (fun ts s => if s ∈ ex then ts else setInsert ts s) ts) init).Nodup := by
  induction rs with
  | nil => intro init h; simpa using h
  | cons r rs ih =>
    intro init h
    simp only [List.foldl_cons]
    exact ih _ (nodup_foldl_ins ex _ init h)

theorem mem_broadcastTargets (a : MemoryAdapter) (nsSockets rooms ex : List String)
    (sid : String) :
    sid ∈ broadcastTargets a nsSockets rooms ex
      ↔ inTargetRooms a nsSockets rooms sid ∧ sid ∉ ex := by
  cases rooms with
  | nil =>
    show sid ∈ (if ([] : List String) = [] then _ else _) ↔ _
    rw [if_pos rfl, mem_foldl_ins]
    simp [inTargetRooms]
  | cons r rs =>
    have hne : (r :: rs) ≠ ([] : List String) := by simp
    show sid ∈ (if (r :: rs : List String) = [] then _ else _) ↔ _
    rw [if_neg hne, mem_foldl_rooms]
    simp [inTargetRooms, MemoryAdapter.Sockets]

theorem nodup_broadcastTargets (a : MemoryAdapter) (nsSockets rooms ex : List String) :
    (broadcastTargets a nsSockets rooms ex).Nodup := by
  cases rooms with
  | nil =>
    show (if ([] : List String) = [] then _ else _ : List String).Nodup
    rw [if_pos rfl]
    exact nodup_foldl_ins ex nsSockets [] (by simp)
  | cons r rs =>
    have hne : (r :: rs) ≠ ([] : List String) := by simp
    show (if (r :: rs : List String) = [] then _ else _ : List String).Nodup
    rw [if_neg hne]
    exact nodup_foldl_rooms a ex (r :: rs) [] (by simp)

theorem broadcast_sends_map (targets nsSockets : List String) (c : Engine.Packet) :
    (targets.filterMap
        (fun sid => if sid ∈ nsSockets then some (sid, c) else none)).map Prod.fst
      = targets.filter (fun sid => decide (sid ∈ nsSockets)) := by
  induction targets with
  | nil => rfl
  | cons t ts ih =>
    by_cases h : t ∈ nsSockets
    · simp [List.filterMap_cons, h, List.filter_cons, ih]
    · simp [List.filterMap_cons, h, List.filter_cons, ih]

/-- C1: `Broadcast(p, rooms, except)` encodes `p` once (every enqueued
event carries the single Engine.IO MESSAGE wrapping of that encoding), and
enqueues it exactly once on the session of every directory-registered
socket whose id is in the candidate set (union of the rooms' member sets,
or the whole namespace when `rooms` is empty) minus the exclusions, and on
no other session. -/
theorem C1_broadcast_targeting (a : MemoryAdapter) (nsSockets : List String)
    (p : Packet) (rooms ex : List String) :
    (∀ e ∈ a.Broadcast nsSockets p rooms ex,
        e.2 = ⟨Engine.PacketTypeMessage, Packet.Encode p⟩)
    ∧ (∀ sid, sid ∈ nsSockets → inTargetRooms a nsSockets rooms sid → sid ∉ ex →
        ((a.Broadcast nsSockets p rooms ex).map Prod.fst).count sid = 1)
    ∧ (∀ sid, ¬ (sid ∈ nsSockets ∧ inTargetRooms a nsSockets rooms sid ∧ sid ∉ ex) →
        ((a.Broadcast nsSockets p rooms ex).map Prod.fst).count sid = 0) := by
  have hB : a.Broadcast nsSockets p rooms ex
      = (broadcastTargets a nsSockets rooms ex).filterMap
          (fun sid => if sid ∈ nsSockets then
            some (sid, (⟨Engine.PacketTypeMessage, Packet.Encode p⟩ : Engine.Packet))
          else none) := rfl
  have hmap : (a.Broadcast nsSockets p rooms ex).map Prod.fst
      = (broadcastTargets a nsSockets rooms ex).filter
          (fun sid => decide (sid ∈ nsSockets)) := by
    rw [hB, broadcast_sends_map]
  have hnd : ((broadcastTargets a nsSockets rooms ex).filter
      (fun sid => decide (sid ∈ nsSockets))).Nodup :=
    (nodup_broadcastTargets a nsSockets rooms ex).filter _
  have hmem : ∀ sid, sid ∈ (broadcastTargets a nsSockets rooms ex).filter
      (fun sid => decide (sid ∈ nsSockets))
      ↔ (inTargetRooms a nsSockets rooms sid ∧ sid ∉ ex) ∧ sid ∈ nsSockets := by
    intro sid
    rw [List.mem_filter, mem_broadcastTargets]
    simp
  refine ⟨?_, ?_, ?_⟩
  · intro e he
    rw [hB] at he
    rcases List.mem_filterMap.mp he with ⟨sid, _, hf⟩
    by_cases h : sid ∈ nsSockets
    · rw [if_pos h] at hf
      cases hf
      rfl
    · rw [if_neg h] at hf
      cases hf
  · intro sid h1 h2 h3
    rw [hmap]
    exact List.count_eq_one_of_mem hnd ((hmem sid).mpr ⟨⟨h2, h3⟩, h1⟩)
  · intro sid h1
    rw [hmap]
    refine List.count_eq_zero_of_not_mem ?_
    intro hm
    rcases (hmem sid).mp hm with ⟨⟨h2, h3⟩, h4⟩
    exact h1 ⟨h4, h2, h3⟩

/-- Witness for C1: two sockets in a room, one excluded, the other gets
exactly one enqueue. -/
theorem C1_broadcast_targeting_witness :
    (((applyOps [.add "s1" "r1", .add "s2" "r1"]).Broadcast ["s1", "s2"]
        ⟨2, ['/'], none, none⟩ ["r1"] ["s1"]).map Prod.fst).count "s2" = 1 :=
  (C1_broadcast_targeting (applyOps [.add "s1" "r1", .add "s2" "r1"]) ["s1", "s2"]
    ⟨2, ['/'], none, none⟩ ["r1"] ["s1"]).2.1 "s2" (by decide) (by decide) (by decide)

/-! ## Lemmas: decimal digits -/

theorem natToCharsCore_acc (fuel : Nat) :
    ∀ (n : Nat) (acc : List Char),
      natToCharsCore fuel n acc = natToCharsCore fuel n [] ++ acc := by
  induction fuel with
  | zero => intro n acc; rfl
  | succ fuel ih =>
    intro n acc
    by_cases h : n < 10
    · simp [natToCharsCore, h]
    · simp only [natToCharsCore, if_neg h]
      rw [ih (n / 10) (digitChar (n % 10) :: acc), ih (n / 10) [digitChar (n % 10)]]
      simp

theorem natToCharsCore_fuel (n : Nat) :
    ∀ fuel fuel' : Nat, n < fuel → n < fuel' →
      natToCharsCore fuel n [] = natToCharsCore fuel' n [] := by
  induction n using Nat.strong_induction_on with
  | _ n ihn =>
    intro fuel fuel' hf hf'
    cases fuel with
    | zero => omega
    | succ f =>
      cases fuel' with
      | zero => omega
      | succ f' =>
        by_cases h : n < 10
        · simp [natToCharsCore, h]
        · simp only [natToCharsCore, if_neg h]
          rw [natToCharsCore_acc f, natToCharsCore_acc f']
          have hn : 0 < n := by omega
          have hlt : n / 10 < n := Nat.div_lt_self hn (by omega)
          rw [ihn (n / 10) hlt f f' (by omega) (by omega)]

theorem natToChars_lt (n : Nat) (h : n < 10) : natToChars n = [digitChar n] := by
  simp [natToChars, natToCharsCore, h]

theorem natToChars_ge (n : Nat) (h : 10 ≤ n) :
    natToChars n = natToChars (n / 10) ++ [digitChar (n % 10)] := by
  have h10 : ¬ n < 10 := by omega
  show natToCharsCore (n + 1) n [] = _
  simp only [natToCharsCore, if_neg h10]
  rw [natToCharsCore_acc n]
  have hlt : n / 10 < n := Nat.div_lt_self (by omega) (by omega)
  rw [natToCharsCore_fuel (n / 10) n (n / 10 + 1) (by omega) (by omega)]
  rfl

theorem digitChar_toNat (k : Nat) (h : k < 10) : (digitChar k).toNat = 48 + k := by
  interval_cases k <;> decide

theorem isDigitChar_digitChar (k : Nat) (h : k < 10) :
    isDigitChar (digitChar k) = true := by
  interval_cases k <;> decide

theorem digitVal_digitChar (k : Nat) (h : k < 10) : digitVal (digitChar k) = k := by
  interval_cases k <;> decide

theorem natToChars_digits (n : Nat) : ∀ c ∈ natToChars n, isDigitChar c = true := by
  induction n using Nat.strong_induction_on with
  | _ n ihn =>
    by_cases h : n < 10
    · rw [natToChars_lt n h]
      intro c hc
      simp at hc
      subst hc
      exact isDigitChar_digitChar n h
    · rw [natToChars_ge n (by omega)]
      intro c hc
      rcases List.mem_append.mp hc with hc | hc
      · exact ihn (n / 10) (Nat.div_lt_self (by omega) (by omega)) c hc
      · simp at hc
        subst hc
        exact isDigitChar_digitChar _ (Nat.mod_lt _ (by omega))

theorem natToChars_head_digit (n : Nat) :
    ∃ d t, natToChars n = d :: t ∧ isDigitChar d = true := by
  induction n using Nat.strong_induction_on with
  | _ n ihn =>
    by_cases h : n < 10
    · exact ⟨digitChar n, [], natToChars_lt n h, isDigitChar_digitChar n h⟩
    · obtain ⟨d, t, ht, hd⟩ := ihn (n / 10) (Nat.div_lt_self (by omega) (by omega))
      refine ⟨d, t ++ [digitChar (n % 10)], ?_, hd⟩
      rw [natToChars_ge n (by omega), ht]
      rfl

theorem natToChars_ne_nil (n : Nat) : natToChars n ≠ [] := by
  obtain ⟨d, t, ht, _⟩ := natToChars_head_digit n
  simp [ht]

theorem digitsVal_append (xs ys : List Char) (acc : Nat) :
    digitsVal (xs ++ ys) acc = digitsVal ys (digitsVal xs acc) := by
  simp [digitsVal, List.foldl_append]

theorem digitsVal_natToChars (n : Nat) :
    ∀ acc, digitsVal (natToChars n) acc = acc * 10 ^ (natToChars n).length + n := by
  induction n using Nat.strong_induction_on with
  | _ n ihn =>
    intro acc
    by_cases h : n < 10
    · rw [natToChars_lt n h]
      simp [digitsVal, digitVal_digitChar n h]
    · rw [natToChars_ge n (by omega), digitsVal_append]
      rw [ihn (n / 10) (Nat.div_lt_self (by omega) (by omega)) acc]
      simp only [digitsVal, List.foldl_cons, List.foldl_nil, List.length_append,
        List.length_cons, List.length_nil]
      rw [digitVal_digitChar _ (Nat.mod_lt _ (by omega))]
      have hpow : 10 ^ ((natToChars (n / 10)).length + (0 + 1))
          = 10 ^ (natToChars (n / 10)).length * 10 := by
        ring
      rw [hpow]
      have hdm := Nat.div_add_mod n 10
      ring_nf
      omega

theorem readDigits_append (ds : List Char) :
    ∀ (rest : List Char) (acc : Nat), (∀ c ∈ ds, isDigitChar c = true) →
      noLeadDigit rest = true →
      readDigits (ds ++ rest) acc = (digitsVal ds acc, rest) := by
  induction ds with
  | nil =>
    intro rest acc _ hr
    cases rest with
    | nil => rfl
    | cons c cs =>
      simp only [noLeadDigit, Bool.not_eq_true'] at hr
      simp [readDigits, hr, digitsVal]
  | cons d ds ih =>
    intro rest acc hd hr
    have hdd : isDigitChar d = true := hd d (by simp)
    simp only [List.cons_append, readDigits, hdd, if_true, List.append_eq]
    rw [ih rest (acc * 10 + digitVal d) (fun c hc => hd c (by simp [hc])) hr]
    rfl

/-! ## Lemmas: JSON serializer shape -/

theorem serJson_head (v : JsonValue) : ∃ c t, serJson v = c :: t ∧
    (c = 'n' ∨ c = 't' ∨ c = 'f' ∨ c = '"' ∨ c = '[' ∨ c = '\x7b' ∨ c = '-'
      ∨ isDigitChar c = true) := by
  cases v with
  | null => exact ⟨'n', ['u', 'l', 'l'], by simp [serJson], by tauto⟩
  | bool b =>
    cases b with
    | true => exact ⟨'t', ['r', 'u', 'e'], by simp [serJson], by tauto⟩
    | false => exact ⟨'f', ['a', 'l', 's', 'e'], by simp [serJson], by tauto⟩
  | num n =>
    by_cases h : n < 0
    · exact ⟨'-', natToChars n.natAbs, by simp [serJson, intToChars, h], by tauto⟩
    · obtain ⟨d, t, ht, hd⟩ := natToChars_head_digit n.toNat
      refine ⟨d, t, ?_, by tauto⟩
      simp [serJson, intToChars, h, ht]
  | str s => exact ⟨'"', escapeString s ++ ['"'], by simp [serJson], by tauto⟩
  | arr es =>
    cases es with
    | nil => exact ⟨'[', [']'], by simp [serJson], by tauto⟩
    | cons x xs => exact ⟨'[', serElemsAux x xs ++ [']'], by simp [serJson], by tauto⟩
  | obj ms =>
    cases ms with
    | nil => exact ⟨'\x7b', ['\x7d'], by simp [serJson], by tauto⟩
    | cons m ms =>
      obtain ⟨k, v⟩ := m
      exact ⟨'\x7b', serMembersAux k v ms ++ ['\x7d'], by simp [serJson], by tauto⟩

theorem serJson_ne_nil (v : JsonValue) : serJson v ≠ [] := by
  obtain ⟨c, t, ht, _⟩ := serJson_head v
  simp [ht]

theorem serJson_head_not_special (v : JsonValue) :
    ∀ c t, serJson v = c :: t → c ≠ '/' ∧ c ≠ ']' ∧ c ≠ '\x7d' ∧ c ≠ ',' := by
  intro c t ht
  obtain ⟨c', t', ht', hcase⟩ := serJson_head v
  rw [ht] at ht'
  obtain ⟨rfl, rfl⟩ : c = c' ∧ t = t' := by
    injection ht' with h1 h2
    exact ⟨h1, h2⟩
  rcases hcase with rfl | rfl | rfl | rfl | rfl | rfl | rfl | hd
  · exact ⟨by decide, by decide, by decide, by decide⟩
  · exact ⟨by decide, by decide, by decide, by decide⟩
  · exact ⟨by decide, by decide, by decide, by decide⟩
  · exact ⟨by decide, by decide, by decide, by decide⟩
  · exact ⟨by decide, by decide, by decide, by decide⟩
  · exact ⟨by decide, by decide, by decide, by decide⟩
  · exact ⟨by decide, by decide, by decide, by decide⟩
  · refine ⟨?_, ?_, ?_, ?_⟩ <;>
      (rintro rfl; revert hd; decide)

theorem jsize_pos (v : JsonValue) : 1 ≤ jsize v := by
  cases v with
  | arr es =>
    cases es with
    | nil => simp [jsize]
    | cons x xs =>
      simp [jsize]
      omega
  | obj ms =>
    cases ms with
    | nil => simp [jsize]
    | cons m ms =>
      obtain ⟨k, v⟩ := m
      simp [jsize]
      omega
  | null => simp [jsize]
  | bool b => simp [jsize]
  | num n => simp [jsize]
  | str s => simp [jsize]

theorem jsize_le_len : ∀ v : JsonValue, jsize v ≤ (serJson v).length
  | .null => by simp [jsize, serJson]
  | .bool true => by simp [jsize, serJson]
  | .bool false => by simp [jsize, serJson]
  | .num n => by
    by_cases h : n < 0
    · simp [jsize, serJson, intToChars, h]
    · have hne := natToChars_ne_nil n.toNat
      have hl : 0 < (natToChars n.toNat).length := List.length_pos.mpr hne
      simp only [jsize, serJson, intToChars, if_neg h]
      omega
  | .str s => by simp [jsize, serJson]
  | .arr [] => by simp [jsize, serJson]
  | .arr [x] => by
    have h1 := jsize_le_len x
    simp only [jsize, serJson, serElemsAux, List.length_cons, List.length_append,
      List.length_singleton, List.length_nil]
    omega
  | .arr (x :: y :: ys) => by
    have h1 := jsize_le_len x
    have h2 := jsize_le_len (.arr (y :: ys))
    simp only [jsize, serJson, serElemsAux, List.length_cons, List.length_append,
      List.length_singleton, List.length_nil] at h2 ⊢
    omega
  | .obj [] => by simp [jsize, serJson]
  | .obj [(k, v)] => by
    have h1 := jsize_le_len v
    simp only [jsize, serJson, serMembersAux, List.length_cons, List.length_append,
      List.length_singleton, List.length_nil]
    omega
  | .obj ((k, v) :: (k', v') :: ms) => by
    have h1 := jsize_le_len v
    have h2 := jsize_le_len (.obj ((k', v') :: ms))
    simp only [jsize, serJson, serMembersAux, List.length_cons, List.length_append,
      List.length_singleton, List.length_nil] at h2 ⊢
    omega
termination_by v => sizeOf v
decreasing_by all_goals (simp; try omega)

/-! ## Lemmas: JSON string roundtrip -/

theorem parseStrBody_escape (s : List Char) :
    ∀ rest, parseStrBody (escapeString s ++ '"' :: rest) = some (s, rest) := by
  induction s with
  | nil =>
    intro rest
    show parseStrBody ('"' :: rest) = some ([], rest)
    rw [parseStrBody.eq_def]
    simp
  | cons c cs ih =>
    intro rest
    by_cases h1 : c = '"'
    · subst h1
      simp only [escapeString, escapeChar, if_pos rfl, List.cons_append, List.append_assoc]
      simp [parseStrBody, unescapeChar, ih rest]
    · by_cases h2 : c = '\\'
      · subst h2
        simp only [escapeString, escapeChar, if_neg (by decide : ¬ ('\\' : Char) = '"'),
          if_pos rfl, List.cons_append, List.append_assoc]
        simp [parseStrBody, unescapeChar, ih rest]
      · by_cases h3 : c = '\n'
        · subst h3
          simp only [escapeString, escapeChar, if_neg (by decide : ¬ ('\n' : Char) = '"'),
            if_neg (by decide : ¬ ('\n' : Char) = '\\'), if_pos rfl, List.cons_append,
            List.append_assoc]
          simp [parseStrBody, unescapeChar, ih rest]
        · by_cases h4 : c = '\t'
          · subst h4
            simp only [escapeString, escapeChar,
              if_neg (by decide : ¬ ('\t' : Char) = '"'),
              if_neg (by decide : ¬ ('\t' : Char) = '\\'),
              if_neg (by decide : ¬ ('\t' : Char) = '\n'), if_pos rfl, List.cons_append,
              List.append_assoc]
            simp [parseStrBody, unescapeChar, ih rest]
          · by_cases h5 : c = '\r'
            · subst h5
              simp only [escapeString, escapeChar,
                if_neg (by decide : ¬ ('\r' : Char) = '"'),
                if_neg (by decide : ¬ ('\r' : Char) = '\\'),
                if_neg (by decide : ¬ ('\r' : Char) = '\n'),
                if_neg (by decide : ¬ ('\r' : Char) = '\t'), if_pos rfl,
                List.cons_append, List.append_assoc]
              simp [parseStrBody, unescapeChar, ih rest]
            · simp only [escapeString, escapeChar, if_neg h1, if_neg h2, if_neg h3,
                if_neg h4, if_neg h5, List.cons_append, List.append_assoc,
                List.nil_append, List.singleton_append]
              rw [parseStrBody.eq_def]
              simp [h1, h2, ih rest]

theorem isDigitChar_ne_keys (d : Char) (hd : isDigitChar d = true) :
    ¬ d = 'n' ∧ ¬ d = 't' ∧ ¬ d = 'f' ∧ ¬ d = '"' ∧ ¬ d = '[' ∧ ¬ d = '\x7b'
      ∧ ¬ d = '-' := by
  refine ⟨?_, ?_, ?_, ?_, ?_, ?_, ?_⟩ <;> (rintro rfl; revert hd; decide)

set_option maxHeartbeats 1000000 in
theorem parse_serJson : ∀ (fuel : Nat) (v : JsonValue) (rest : List Char),
    jsize v ≤ fuel → noLeadDigit rest = true →
    parseValue fuel (serJson v ++ rest) = some (v, rest) := by
  intro fuel
  induction fuel with
  | zero =>
    intro v rest h _
    have := jsize_pos v
    omega
  | succ fuel ih =>
    intro v rest hs hr
    cases v with
    | null =>
      simp only [serJson, List.cons_append, List.nil_append]
      simp [parseValue]
    | bool b =>
      cases b with
      | true =>
        simp only [serJson, List.cons_append, List.nil_append]
        simp [parseValue]
      | false =>
        simp only [serJson, List.cons_append, List.nil_append]
        simp [parseValue]
    | str s =>
      simp only [serJson, List.cons_append, List.append_assoc, List.singleton_append]
      simp [parseValue, parseStrBody_escape s rest]
    | num n =>
      simp only [serJson]
      by_cases hneg : n < 0
      · simp only [intToChars, if_pos hneg]
        obtain ⟨d, t, ht, hd⟩ := natToChars_head_digit n.natAbs
        have hread : readDigits (natToChars n.natAbs ++ rest) 0
            = (digitsVal (natToChars n.natAbs) 0, rest) :=
          readDigits_append _ rest 0 (natToChars_digits _) hr
        have hval : digitsVal (natToChars n.natAbs) 0 = n.natAbs := by
          rw [digitsVal_natToChars]
          simp
        have hread2 : readDigits (d :: (t ++ rest)) 0 = (n.natAbs, rest) := by
          rw [← List.cons_append, ← ht, hread, hval]
        have hcast : -((n.natAbs : Nat) : Int) = n := by omega
        have hcabs : -(|n|) = n := by
          rw [abs_of_neg hneg]
          exact neg_neg n
        rw [List.cons_append, ht, List.cons_append]
        simp [parseValue, hd, hread2, hcast, hcabs]
      · simp only [intToChars, if_neg hneg]
        obtain ⟨d, t, ht, hd⟩ := natToChars_head_digit n.toNat
        have hne := isDigitChar_ne_keys d hd
        have hread : readDigits (natToChars n.toNat ++ rest) 0
            = (digitsVal (natToChars n.toNat) 0, rest) :=
          readDigits_append _ rest 0 (natToChars_digits _) hr
        have hval : digitsVal (natToChars n.toNat) 0 = n.toNat := by
          rw [digitsVal_natToChars]
          simp
        have hread2 : readDigits (d :: (t ++ rest)) 0 = (n.toNat, rest) := by
          rw [← List.cons_append, ← ht, hread, hval]
        have hcast : ((n.toNat : Nat) : Int) = n := Int.toNat_of_nonneg (by omega)
        rw [ht, List.cons_append]
        simp [parseValue, hne.1, hne.2.1, hne.2.2.1, hne.2.2.2.1, hne.2.2.2.2.1,
          hne.2.2.2.2.2.1, hne.2.2.2.2.2.2, hd, hread2, hcast]
    | arr es =>
      cases es with
      | nil =>
        simp only [serJson, List.cons_append, List.nil_append]
        simp [parseValue]
      | cons x xs =>
        have hx : jsize x ≤ fuel := by
          have h1 := jsize_pos (JsonValue.arr xs)
          simp only [jsize] at hs
          omega
        cases xs with
        | nil =>
          simp only [serJson, serElemsAux, List.cons_append, List.append_assoc,
            List.singleton_append]
          obtain ⟨c, t, ht, _⟩ := serJson_head x
          have hcne := serJson_head_not_special x c t ht
          have hhead : (serJson x ++ ']' :: rest).head? ≠ some ']' := by
            rw [ht]
            simp only [List.cons_append, List.head?_cons]
            intro hcon
            exact hcne.2.1 (by injection hcon)
          have hih := ih x (']' :: rest) hx rfl
          have hserhead : (serJson x).head? = some c := by
            rw [ht]
            rfl
          simp [parseValue, hih, hserhead, hcne.2.1, serJson_ne_nil x]
        | cons y ys =>
          have hy : jsize (JsonValue.arr (y :: ys)) ≤ fuel := by
            have h1 := jsize_pos x
            simp only [jsize] at hs ⊢
            omega
          simp only [serJson, serElemsAux, List.cons_append, List.append_assoc,
            List.singleton_append]
          obtain ⟨c, t, ht, _⟩ := serJson_head x
          have hcne := serJson_head_not_special x c t ht
          have hhead : (serJson x ++ ',' :: (serElemsAux y ys ++ ']' :: rest)).head?
              ≠ some ']' := by
            rw [ht]
            simp only [List.cons_append, List.head?_cons]
            intro hcon
            exact hcne.2.1 (by injection hcon)
          have hih := ih x (',' :: (serElemsAux y ys ++ ']' :: rest)) hx rfl
          have hserhead : (serJson x).head? = some c := by
            rw [ht]
            rfl
          have hinner : parseValue fuel ('[' :: (serElemsAux y ys ++ ']' :: rest))
              = some (.arr (y :: ys), rest) := by
            have hh := ih (JsonValue.arr (y :: ys)) rest hy hr
            simpa only [serJson, serElemsAux, List.cons_append, List.append_assoc,
              List.singleton_append] using hh
          simp [parseValue, hih, hinner, hserhead, hcne.2.1, serJson_ne_nil x]
    | obj ms =>
      cases ms with
      | nil =>
        simp only [serJson, List.cons_append, List.nil_append]
        simp [parseValue]
      | cons m ms =>
        obtain ⟨k, v⟩ := m
        have hv : jsize v ≤ fuel := by
          have h1 := jsize_pos (JsonValue.obj ms)
          simp only [jsize] at hs
          omega
        cases ms with
        | nil =>
          simp only [serJson, serMembersAux, List.cons_append, List.append_assoc,
            List.singleton_append]
          have hstr := parseStrBody_escape k (':' :: (serJson v ++ '\x7d' :: rest))
          have hvv := ih v ('\x7d' :: rest) hv rfl
          simp only [List.cons_append, List.append_assoc] at hstr ⊢
          simp [parseValue, hstr, hvv]
        | cons m' ms' =>
          obtain ⟨k', v'⟩ := m'
          have hv' : jsize (JsonValue.obj ((k', v') :: ms')) ≤ fuel := by
            have h1 := jsize_pos v
            simp only [jsize] at hs ⊢
            omega
          simp only [serJson, serMembersAux, List.cons_append, List.append_assoc,
            List.singleton_append]
          have hstr := parseStrBody_escape k
            (':' :: (serJson v ++ ',' :: (serMembersAux k' v' ms' ++ '\x7d' :: rest)))
          have hvv := ih v (',' :: (serMembersAux k' v' ms' ++ '\x7d' :: rest)) hv rfl
          have hinner : parseValue fuel
              ('\x7b' :: (serMembersAux k' v' ms' ++ '\x7d' :: rest))
              = some (.obj ((k', v') :: ms'), rest) := by
            have hh := ih (JsonValue.obj ((k', v') :: ms')) rest hv' hr
            simpa only [serJson, serMembersAux, List.cons_append, List.append_assoc,
              List.singleton_append] using hh
          simp only [List.cons_append, List.append_assoc] at hstr ⊢
          simp [parseValue, hstr, hvv, hinner]

/-! ## Lemmas: Socket.IO packet codec -/

theorem jsonParse_serJson (v : JsonValue) : jsonParse (serJson v) = some v := by
  rw [jsonParse]
  have h := parse_serJson ((serJson v).length + 1) v []
    (by have := jsize_le_len v; omega) rfl
  rw [List.append_nil] at h
  rw [h]

theorem digitsVal_natToChars0 (k : Nat) : digitsVal (natToChars k) 0 = k := by
  rw [digitsVal_natToChars]
  simp

theorem splitComma_append (pre post : List Char) (h : ',' ∉ pre) :
    splitComma (pre ++ ',' :: post) = some (pre, post) := by
  induction pre with
  | nil => simp [splitComma]
  | cons c cs ih =>
    simp only [List.mem_cons] at h
    push_neg at h
    simp only [List.cons_append, splitComma,
      if_neg (fun hh : c = ',' => h.1 hh.symm), List.append_eq, ih h.2]

theorem DecodePacket_type (t : Nat) (ht : t ≤ 6) (tail : List Char) :
    DecodePacket (natToChars t ++ tail) = decodeAfterType t tail := by
  interval_cases t <;> (rw [natToChars_lt _ (by omega)]; rfl)

theorem decodeAfterType_noslash (t : Nat) (cs : List Char)
    (h : cs.head? ≠ some '/') : decodeAfterType t cs = decodeAfterNs t ['/'] cs := by
  rw [decodeAfterType, if_neg h]

theorem decodeAfterType_withNs (t : Nat) (ns tail : List Char) (hne : ',' ∉ ns)
    (hhead : ns.head? = some '/') :
    decodeAfterType t (ns ++ ',' :: tail) = decodeAfterNs t ns tail := by
  have hh : (ns ++ ',' :: tail).head? = some '/' := by
    cases ns with
    | nil => simp at hhead
    | cons c cs => simpa using hhead
  rw [decodeAfterType, if_pos hh]
  simp [splitComma_append ns tail hne]

theorem decodeAfterNs_nodigit (t : Nat) (ns cs : List Char)
    (h : noLeadDigit cs = true) :
    decodeAfterNs t ns cs = decodeAfterId t ns none cs := by
  cases cs with
  | nil => rfl
  | cons c cs' =>
    simp only [noLeadDigit, Bool.not_eq_true'] at h
    simp [decodeAfterNs, h]

theorem decodeAfterNs_digits (t : Nat) (ns ds tail : List Char) (hne : ds ≠ [])
    (hd : ∀ c ∈ ds, isDigitChar c = true) (htail : noLeadDigit tail = true) :
    decodeAfterNs t ns (ds ++ tail)
      = decodeAfterId t ns (some (intClamp (digitsVal ds 0))) tail := by
  cases ds with
  | nil => simp at hne
  | cons d ds' =>
    have hdd := hd d (by simp)
    have hread := readDigits_append (d :: ds') tail 0 hd htail
    have hread2 : readDigits (d :: (ds' ++ tail)) 0 = (digitsVal (d :: ds') 0, tail) := by
      rw [← List.cons_append]
      exact hread
    simp only [List.cons_append, decodeAfterNs, hdd, if_true, hread2]

theorem decodeAfterId_data (t : Nat) (ns : List Char) (id : Option Int)
    (v : JsonValue) :
    decodeAfterId t ns id (serJson v) = some ⟨t, ns, some v, id⟩ := by
  obtain ⟨c, tl, hts, _⟩ := serJson_head v
  have hj : jsonParse (c :: tl) = some v := by
    rw [← hts]
    exact jsonParse_serJson v
  rw [hts]
  simp [decodeAfterId, hj]

theorem decodeAfterId_dataPart (t : Nat) (ns : List Char) (id : Option Int)
    (d : Option JsonValue) :
    decodeAfterId t ns id (dataPart d) = some ⟨t, ns, d, id⟩ := by
  cases d with
  | none => rfl
  | some v => exact decodeAfterId_data t ns id v

theorem dataPart_noLeadDigit (d : Option JsonValue) (hd : dataOk d) :
    noLeadDigit (dataPart d) = true := by
  cases d with
  | none => rfl
  | some v => exact hd

theorem decodeAfterNs_enc (t : Nat) (ns : List Char) (id : Option Int)
    (hid : id = none ∨ id = some 0 ∨ id = some 1 ∨ id = some 2147483647)
    (d : Option JsonValue) (hd : dataOk d) :
    decodeAfterNs t ns (idPart id ++ dataPart d) = some ⟨t, ns, d, id⟩ := by
  have hnl := dataPart_noLeadDigit d hd
  have hdigits : ∀ i : Int, 0 ≤ i → i ≤ 2147483647 →
      decodeAfterNs t ns (intToChars i ++ dataPart d) = some ⟨t, ns, d, some i⟩ := by
    intro i h0 h1
    have hneg : ¬ i < 0 := by omega
    rw [show intToChars i = natToChars i.toNat by simp [intToChars, hneg]]
    rw [decodeAfterNs_digits t ns _ _ (natToChars_ne_nil _) (natToChars_digits _) hnl]
    rw [digitsVal_natToChars0]
    have hclamp : intClamp i.toNat = i := by
      rw [intClamp, if_pos (by rw [maxInt64]; omega)]
      omega
    rw [hclamp]
    exact decodeAfterId_dataPart t ns (some i) d
  rcases hid with rfl | rfl | rfl | rfl
  · rw [show idPart none = [] from rfl, List.nil_append]
    rw [decodeAfterNs_nodigit t ns _ hnl]
    exact decodeAfterId_dataPart t ns none d
  · exact hdigits 0 (by omega) (by omega)
  · exact hdigits 1 (by omega) (by omega)
  · exact hdigits 2147483647 (by omega) (by omega)

theorem tail_head_not_slash (id : Option Int)
    (hid : id = none ∨ id = some 0 ∨ id = some 1 ∨ id = some 2147483647)
    (d : Option JsonValue) :
    (idPart id ++ dataPart d).head? ≠ some '/' := by
  have hdigits : ∀ i : Int, 0 ≤ i →
      (intToChars i ++ dataPart d).head? ≠ some '/' := by
    intro i h0
    have hneg : ¬ i < 0 := by omega
    rw [show intToChars i = natToChars i.toNat by simp [intToChars, hneg]]
    obtain ⟨d0, t0, ht0, hd0⟩ := natToChars_head_digit i.toNat
    rw [ht0]
    simp only [List.cons_append, List.head?_cons]
    intro hcon
    have hslash : d0 = '/' := by injection hcon
    subst hslash
    revert hd0
    decide
  rcases hid with rfl | rfl | rfl | rfl
  · rw [show idPart none = [] from rfl, List.nil_append]
    cases d with
    | none => simp [dataPart]
    | some v =>
      obtain ⟨c, tl, hts, _⟩ := serJson_head v
      have hcne := serJson_head_not_special v c tl hts
      show (dataPart (some v)).head? ≠ some '/'
      rw [show dataPart (some v) = serJson v from rfl, hts]
      simp only [List.head?_cons]
      intro hcon
      exact hcne.1 (by injection hcon)
  · exact hdigits 0 (by omega)
  · exact hdigits 1 (by omega)
  · exact hdigits 2147483647 (by omega)

/-! ## Claim C2: Socket.IO codec roundtrip -/

/-- C2 counterexample: for the in-range input `(type 2, namespace "/",
no ack id, data = the JSON number 7)` the encoding is `"27"`, which decodes
with ack id 7 and no data — decode∘encode is not the identity on bare
digit-leading JSON data. -/
theorem C2_decode_encode_not_id :
    DecodePacket (Packet.Encode ⟨2, ['/'], some (.num 7), none⟩)
      ≠ some ⟨2, ['/'], some (.num 7), none⟩ := by
  have hser : serJson (JsonValue.num 7) = ['7'] := by
    have h1 : serJson (JsonValue.num 7) = intToChars 7 := by simp [serJson]
    rw [h1]
    decide
  have henc : Packet.Encode ⟨2, ['/'], some (.num 7), none⟩ = ['2', '7'] := by
    simp only [Packet.Encode, idPart, dataPart, hser]
    decide
  rw [henc]
  have hdec : DecodePacket ['2', '7'] = some ⟨2, ['/'], none, some 7⟩ := rfl
  rw [hdec]
  simp

/-- C2 (amended): decode∘encode is the identity for every type in 0..6,
namespace in the given set, ack id in the given set, and data that is
either absent or a JSON value whose serialization does not begin with a
decimal digit (arrays, objects, strings, booleans, null, negative
numbers); a bare non-negative JSON number is excluded because the greedy
ack-id scan re-reads it as an id. -/
theorem C2_roundtrip (t : Nat) (ht : t ≤ 6) (ns : List Char)
    (hns : ns = ['/'] ∨ ns = ['/', 'a'] ∨ ns = ['/', 'a', '/', 'b'])
    (id : Option Int)
    (hid : id = none ∨ id = some 0 ∨ id = some 1 ∨ id = some 2147483647)
    (d : Option JsonValue) (hd : dataOk d) :
    DecodePacket (Packet.Encode ⟨t, ns, d, id⟩) = some ⟨t, ns, d, id⟩ := by
  have henc : Packet.Encode ⟨t, ns, d, id⟩
      = natToChars t ++ ((if ns ≠ [] ∧ ns ≠ ['/'] then ns ++ [','] else [])
          ++ (idPart id ++ dataPart d)) := by
    simp [Packet.Encode, List.append_assoc]
  rw [henc]
  rcases hns with rfl | rfl | rfl
  · rw [show (if (['/'] : List Char) ≠ [] ∧ (['/'] : List Char) ≠ ['/']
        then ['/'] ++ [','] else []) = [] from by decide]
    rw [List.nil_append, DecodePacket_type t ht,
      decodeAfterType_noslash t _ (tail_head_not_slash id hid d)]
    exact decodeAfterNs_enc t ['/'] id hid d hd
  · rw [show (if (['/', 'a'] : List Char) ≠ [] ∧ (['/', 'a'] : List Char) ≠ ['/']
        then ['/', 'a'] ++ [','] else []) = ['/', 'a'] ++ [','] from by decide]
    simp only [List.append_assoc, List.singleton_append]
    rw [DecodePacket_type t ht,
      decodeAfterType_withNs t ['/', 'a'] _ (by decide) rfl]
    exact decodeAfterNs_enc t ['/', 'a'] id hid d hd
  · rw [show (if (['/', 'a', '/', 'b'] : List Char) ≠ []
          ∧ (['/', 'a', '/', 'b'] : List Char) ≠ ['/']
        then ['/', 'a', '/', 'b'] ++ [','] else [])
        = ['/', 'a', '/', 'b'] ++ [','] from by decide]
    simp only [List.append_assoc, List.singleton_append]
    rw [DecodePacket_type t ht,
      decodeAfterType_withNs t ['/', 'a', '/', 'b'] _ (by decide) rfl]
    exact decodeAfterNs_enc t ['/', 'a', '/', 'b'] id hid d hd

/-- Witness for C2 at a concrete packet. -/
theorem C2_roundtrip_witness :
    DecodePacket (Packet.Encode ⟨2, ['/', 'a'], some (.arr [.str ['h', 'i']]), some 1⟩)
      = some ⟨2, ['/', 'a'], some (.arr [.str ['h', 'i']]), some 1⟩ := by
  refine C2_roundtrip 2 (by omega) ['/', 'a'] (Or.inr (Or.inl rfl)) (some 1)
    (Or.inr (Or.inr (Or.inl rfl))) (some (.arr [.str ['h', 'i']])) ?_
  show noLeadDigit (serJson (JsonValue.arr [JsonValue.str ['h', 'i']])) = true
  rw [show serJson (JsonValue.arr [JsonValue.str ['h', 'i']])
      = '[' :: (serElemsAux (JsonValue.str ['h', 'i']) [] ++ [']']) from by
    simp [serJson]]
  rfl

/-! ## Claim C9: ack-id overflow is clamped, not rejected -/

/-- C9: an ack-id digit run denoting a value beyond the machine integer
range does not make `DecodePacket` fail: the `strconv.Atoi` range error is
discarded and the packet carries the clamped value `math.MaxInt64`, which
differs from the mathematical value of the digits. -/
theorem C9_ack_overflow_clamped (t : Nat) (ht : t ≤ 6) (ds : List Char)
    (hne : ds ≠ []) (hdig : ∀ c ∈ ds, isDigitChar c = true)
    (hbig : 9223372036854775807 < digitsVal ds 0) :
    DecodePacket (natToChars t ++ ds)
        = some ⟨t, ['/'], none, some 9223372036854775807⟩
      ∧ ((9223372036854775807 : Int) ≠ (digitsVal ds 0 : Int)) := by
  constructor
  · rw [DecodePacket_type t ht]
    have hhead : ds.head? ≠ some '/' := by
      cases ds with
      | nil => simp at hne
      | cons c cs =>
        have hc := hdig c (by simp)
        simp only [List.head?_cons]
        intro hcon
        have hsl : c = '/' := by injection hcon
        subst hsl
        revert hc
        decide
    rw [decodeAfterType_noslash t ds hhead]
    have h2 : decodeAfterNs t ['/'] (ds ++ [])
        = decodeAfterId t ['/'] (some (intClamp (digitsVal ds 0))) [] :=
      decodeAfterNs_digits t ['/'] ds [] hne hdig rfl
    rw [List.append_nil] at h2
    rw [h2]
    have hclamp : intClamp (digitsVal ds 0) = 9223372036854775807 := by
      rw [intClamp, if_neg (by rw [maxInt64]; omega)]
      rw [maxInt64]
    rw [hclamp]
    rfl
  · omega

/-- Witness for C9: a 19-nines ack id (10^19 - 1, above 2^63 - 1). -/
theorem C9_ack_overflow_clamped_witness :
    DecodePacket (natToChars 3 ++
        ['9', '9', '9', '9', '9', '9', '9', '9', '9', '9', '9', '9', '9', '9',
         '9', '9', '9', '9', '9'])
      = some ⟨3, ['/'], none, some 9223372036854775807⟩ :=
  (C9_ack_overflow_clamped 3 (by omega) _ (by decide) (by decide) (by decide)).1
